import Mathlib

/-! multisnake: the listener registry (`util.hpp`), the connection broker and the game board (`Lobby.hpp`)

Shallow embedding of `Observable<Listener>`, of `Network`, and of `Player`,
`GameBoardImpl` and `GameBoard::create`.

* An object is identified by a natural number (the identity of its control
  block).  `sp` is an owning reference, `wp` a non-owning one; which objects
  are still alive is given by a predicate `alive`, so `lock` is a function of
  the heap and of the weak reference.
* `std::list<wp<Listener>>` is a `List wp`, oldest entry first.
* `std::map<connection_hdl, sp<Endpoint>>` is an association list whose
  operations follow `find` / `insert` / `erase(iterator)`.
* What a callback or the transport can observe is recorded: `notify` returns
  the listeners it invoked the callback on, in order, and the broker returns
  the notifications it delivered and keeps the frames it handed to the server.
* `make_shared` takes the identity `next` of the heap and moves `next` on; an
  assertion that fires, and a read through an empty pointer, end a call without
  a result.
* `std::map<sp<Player>, body_t>` is an association list like the `clients` map;
  a timer task is a number, and running it is recorded.
-/

namespace Multisnake

/-! ## util.hpp : smart pointers -/

/-- `sp<T>`: an owning reference, identified by the object it owns. -/
abbrev sp := Nat

/-- `wp<T>`: a non-owning reference to the object with that identity. -/
abbrev wp := Nat

/-- `weak_ptr::lock`: the owning reference when the object is alive, nothing otherwise. -/
def lock (alive : Nat → Bool) (w : wp) : Option sp :=
  if alive w then some w else none

/-- `weak_ptr::expired`. -/
def expired (alive : Nat → Bool) (w : wp) : Bool :=
  !alive w

/-! ## util.hpp : Observable -/

/-- `Observable::ListenerComparator::operator()`: the entry resolves and is the needed listener. -/
def ListenerComparator (alive : Nat → Bool) (needed : sp) (inListListener : wp) : Bool :=
  match lock alive inListListener with
  | some strongInListListener => strongInListListener == needed
  | none => false

/-- `Observable<Listener>`: the private list of weak listeners, in insertion order. -/
structure Observable where
  listeners : List wp
  deriving DecidableEq, Repr

namespace Observable

/-- `Observable::subscribe`. -/
def subscribe (alive : Nat → Bool) (o : Observable) (listener : wp) : Observable :=
  match lock alive listener with
  | some strongListener =>
    match o.listeners.find? (ListenerComparator alive strongListener) with
    | some _ => o
    | none => { o with listeners := o.listeners ++ [listener] }
  | none => o

/-- `Observable::unsubscibe` (the source's spelling): `remove_if` with the comparator. -/
def unsubscibe (alive : Nat → Bool) (o : Observable) (listener : wp) : Observable :=
  match lock alive listener with
  | some strongListener =>
    { o with listeners := o.listeners.filter (fun w => !ListenerComparator alive strongListener w) }
  | none => o

/-- `Observable::removeExpired`: `remove_if` of the expired entries. -/
def removeExpired (alive : Nat → Bool) (o : Observable) : Observable :=
  { o with listeners := o.listeners.filter (fun w => !expired alive w) }

/-- The `for` loop of `Observable::notify` when the callback leaves the list
alone: walks the entries, carrying `areExpiredHere` and the listeners the
callback has been invoked on so far. -/
def notifyLoop (alive : Nat → Bool) : List wp → Bool × List sp → Bool × List sp
  | [], acc => acc
  | listener :: rest, (areExpiredHere, invoked) =>
    match lock alive listener with
    | some strongListener => notifyLoop alive rest (areExpiredHere, invoked ++ [strongListener])
    | none => notifyLoop alive rest (true, invoked)

/-- `Observable::notify` for a callback that does not touch the registry:
the registry afterwards and the listeners the callback was invoked on, in
order of invocation. -/
def notify (alive : Nat → Bool) (o : Observable) : Observable × List sp :=
  let r := notifyLoop alive o.listeners (false, [])
  (if r.1 then removeExpired alive o else o, r.2)

/-- `Observable::areListenersHere`. -/
def areListenersHere (o : Observable) : Bool :=
  !o.listeners.isEmpty

end Observable

/-! ## util.hpp : Observable::notify with callbacks that call back into the registry

`for (auto listener : listeners)` walks the list itself: the iterator sits on a
node of `listeners` while the callback runs, and the callback can reach
`subscribe` and `unsubscibe`, which are public.  `push_back` adds a node behind
every node ahead of the iterator; `remove_if` unlinks nodes wherever they are,
and unlinking the node under the iterator leaves the loop with an iterator into
a destroyed node. -/

/-- A call a callback makes on the registry that is notifying it. -/
inductive RegistryCall where
  | subscribe (listener : wp)
  | unsubscibe (listener : wp)
  deriving DecidableEq, Repr

/-- The list during the loop: the nodes the iterator has passed, the node it
is on, the nodes still ahead. -/
structure Cursor where
  before : List wp
  cur : wp
  after : List wp
  deriving DecidableEq, Repr

namespace Cursor

/-- The whole list, as `subscribe` and `unsubscibe` see it. -/
def toList (c : Cursor) : List wp :=
  c.before ++ c.cur :: c.after

/-- `Observable::subscribe` called while the loop is on `c.cur`. -/
def subscribe (alive : Nat → Bool) (c : Cursor) (listener : wp) : Cursor :=
  match lock alive listener with
  | some strongListener =>
    match c.toList.find? (ListenerComparator alive strongListener) with
    | some _ => c
    | none => { c with after := c.after ++ [listener] }
  | none => c

/-- `Observable::unsubscibe` called while the loop is on `c.cur`; nothing when
`remove_if` unlinks the node the iterator is on. -/
def unsubscibe (alive : Nat → Bool) (c : Cursor) (listener : wp) : Option Cursor :=
  match lock alive listener with
  | some strongListener =>
    if ListenerComparator alive strongListener c.cur then none
    else some
      { before := c.before.filter (fun w => !ListenerComparator alive strongListener w)
        cur := c.cur
        after := c.after.filter (fun w => !ListenerComparator alive strongListener w) }
  | none => some c

/-- The calls of one callback, in order. -/
def run (alive : Nat → Bool) : List RegistryCall → Cursor → Option Cursor
  | [], c => some c
  | .subscribe listener :: calls, c => run alive calls (c.subscribe alive listener)
  | .unsubscibe listener :: calls, c =>
    match c.unsubscibe alive listener with
    | some c1 => run alive calls c1
    | none => none

end Cursor

/-- How a pass ends. -/
inductive Pass (α : Type) where
  | finished (result : α)
  | invalidated
  | outOfFuel
  deriving DecidableEq, Repr

namespace Observable

/-- The `for` loop of `Observable::notify` with a callback that issues
`callback l` on the registry when invoked on `l`.  `before` are the nodes
passed, the second list the node under the iterator and the nodes ahead;
the result is the list at the end of the loop, `areExpiredHere`, and the
listeners the callback was invoked on. -/
def notifyFrom (alive : Nat → Bool) (callback : sp → List RegistryCall) :
    Nat → List wp → List wp → Bool → List sp → Pass (List wp × Bool × List sp)
  | _, before, [], areExpiredHere, invoked => .finished (before, areExpiredHere, invoked)
  | 0, _, _ :: _, _, _ => .outOfFuel
  | fuel + 1, before, listener :: after, areExpiredHere, invoked =>
    match lock alive listener with
    | some strongListener =>
      match Cursor.run alive (callback strongListener) ⟨before, listener, after⟩ with
      | some c =>
        notifyFrom alive callback fuel (c.before ++ [c.cur]) c.after areExpiredHere
          (invoked ++ [strongListener])
      | none => .invalidated
    | none => notifyFrom alive callback fuel (before ++ [listener]) after true invoked

/-- `Observable::notify` with a callback that may call back into the registry:
the loop, then `removeExpired` when an expired entry was met. -/
def notifyWith (alive : Nat → Bool) (callback : sp → List RegistryCall) (fuel : Nat)
    (o : Observable) : Pass (Observable × List sp) :=
  match notifyFrom alive callback fuel [] o.listeners false [] with
  | .finished (ls, areExpiredHere, invoked) =>
    .finished (if areExpiredHere then removeExpired alive { listeners := ls }
      else { listeners := ls }, invoked)
  | .invalidated => .invalidated
  | .outOfFuel => .outOfFuel

end Observable

/-! ## Lobby.hpp : INetwork -/

/-- `INetwork::TextMessage`: the `std::string` it wraps, as its bytes (each a
number below 256). -/
structure TextMessage where
  message : List Nat
  deriving DecidableEq, Repr

/-- `INetwork::BinaryMessage`: the bytes. -/
structure BinaryMessage where
  data : List Nat
  deriving DecidableEq, Repr

/-- `INetwork::Endpoint`: remote address and connection handle. -/
structure Endpoint where
  address : String
  hdl : Nat
  deriving DecidableEq, Repr

/-- `websocketpp::frame::opcode` of a data frame. -/
inductive opcode where
  | continuation
  | text
  | binary
  deriving DecidableEq, Repr

/-- The message the transport hands to the message handler: its opcode and the
bytes of its payload. -/
structure message_ptr where
  get_opcode : opcode
  get_payload : List Nat
  deriving DecidableEq, Repr

/-- One `server->send(hdl, payload, op, err)`. -/
structure Frame where
  hdl : Nat
  payload : List Nat
  op : opcode
  deriving DecidableEq, Repr

/-- What the broker has asked of the websocketpp server: the frames handed to
`send`, oldest first.  No other operation of the server is called outside `run`. -/
structure serverpp where
  sent : List Frame
  deriving DecidableEq, Repr

/-- The virtual calls of `INetwork::Listener`. -/
inductive Notification where
  | onConnected (endpoint : Endpoint)
  | onDisconnected (endpoint : Endpoint)
  | onMessageText (endpoint : Endpoint) (message : TextMessage)
  | onMessageBinary (endpoint : Endpoint) (message : BinaryMessage)
  deriving DecidableEq, Repr

/-- One call of a listener by the broker, with the broker's `clients` as they
are while the call runs. -/
structure Delivery where
  listener : sp
  call : Notification
  clients : List (Nat × Endpoint)
  deriving DecidableEq, Repr

/-! ## Lobby.hpp : the `clients` map -/

/-- `std::map::find`: the endpoint stored under the handle. -/
def find : List (Nat × Endpoint) → Nat → Option Endpoint
  | [], _ => none
  | (k, v) :: rest, hdl => if k = hdl then some v else find rest hdl

/-- `std::map::insert`: adds the pair unless the key is taken; the flag is
`.second` of the result. -/
def insert (m : List (Nat × Endpoint)) (hdl : Nat) (endpoint : Endpoint) :
    List (Nat × Endpoint) × Bool :=
  match find m hdl with
  | some _ => (m, false)
  | none => (m ++ [(hdl, endpoint)], true)

/-- `std::map::erase(found)` for `found = find(hdl)`: unlinks that node. -/
def erase : List (Nat × Endpoint) → Nat → List (Nat × Endpoint)
  | [], _ => []
  | (k, v) :: rest, hdl => if k = hdl then rest else (k, v) :: erase rest hdl

/-- The keys of a `std::map` are pairwise different. -/
def UniqueKeys (m : List (Nat × Endpoint)) : Prop :=
  (m.map Prod.fst).Nodup

instance (m : List (Nat × Endpoint)) : Decidable (UniqueKeys m) := by
  unfold UniqueKeys; infer_instance

/-! ## Lobby.hpp : Network -/

/-- `Network`: the listener list it inherits from `Observable`, the `clients`
map and the server. -/
structure Network extends Observable where
  clients : List (Nat × Endpoint)
  server : serverpp
  deriving DecidableEq, Repr

namespace Network

/-- `notify` of the inherited `Observable` with a callback that makes `call`
on each listener and does not call back into the broker. -/
def notify (alive : Nat → Bool) (n : Network) (call : Notification) :
    Network × List Delivery :=
  let r := n.toObservable.notify alive
  ({ n with toObservable := r.1 }, r.2.map (fun listener => ⟨listener, call, n.clients⟩))

/-- `Network::send(sp<Endpoint>, sp<TextMessage>)`. -/
def send (n : Network) (endpoint : Endpoint) (message : TextMessage) : Network :=
  { n with server := { sent := n.server.sent ++ [⟨endpoint.hdl, message.message, opcode.text⟩] } }

/-- `Network::send(sp<Endpoint>, sp<BinaryMessage>)`: the body is empty. -/
def send_binary (n : Network) (_endpoint : Endpoint) (_message : BinaryMessage) : Network :=
  n

/-- `Network::disconnect`: the body is empty. -/
def disconnect (n : Network) (_endpoint : Endpoint) : Network :=
  n

/-- `Network::onConnected`; `get_remote_endpoint hdl` is what the connection
behind the handle reports as its remote address.  Nothing is returned when
`ASSERT(inserted)` fires. -/
def onConnected (alive : Nat → Bool) (get_remote_endpoint : Nat → String) (n : Network)
    (hdl : Nat) : Option (Network × List Delivery) :=
  match find n.clients hdl with
  | some _ => some (n, [])
  | none =>
    let endpoint : Endpoint := ⟨get_remote_endpoint hdl, hdl⟩
    let inserted := insert n.clients hdl endpoint
    if inserted.2 then
      some (notify alive { n with clients := inserted.1 } (.onConnected endpoint))
    else none

/-- `Network::onDisconnected`. -/
def onDisconnected (alive : Nat → Bool) (n : Network) (hdl : Nat) : Network × List Delivery :=
  match find n.clients hdl with
  | none => (n, [])
  | some endpoint =>
    let r := notify alive n (.onDisconnected endpoint)
    ({ r.1 with clients := erase r.1.clients hdl }, r.2)

/-- `Network::onMessage`. -/
def onMessage (alive : Nat → Bool) (n : Network) (hdl : Nat) (msg : message_ptr) :
    Network × List Delivery :=
  match find n.clients hdl with
  | none => (n, [])
  | some endpoint =>
    if msg.get_opcode = opcode.text then
      notify alive n (.onMessageText endpoint ⟨msg.get_payload⟩)
    else
      notify alive n (.onMessageBinary endpoint ⟨msg.get_payload⟩)

end Network

/-! ## Lobby.hpp : the transport events `run` dispatches -/

/-- An event of the websocketpp server, as the handlers set in `Network::run`
receive it; `address` is what the connection behind the handle reports as its
remote address when it opens. -/
inductive TransportEvent where
  | connected (hdl : Nat) (address : String)
  | closed (hdl : Nat)
  | message (hdl : Nat) (msg : message_ptr)
  deriving DecidableEq, Repr

namespace Network

/-- The handler `Network::run` installs for the event: `onConnected`,
`onDisconnected` or `onMessage`. -/
def dispatch (alive : Nat → Bool) (n : Network) :
    TransportEvent → Option (Network × List Delivery)
  | .connected hdl address => n.onConnected alive (fun _ => address) hdl
  | .closed hdl => some (n.onDisconnected alive hdl)
  | .message hdl msg => some (n.onMessage alive hdl msg)

/-- `Network::run` over a finite sequence of events: each is dispatched in
turn; the deliveries are collected in order.  Nothing is returned when an
assertion fires. -/
def run (alive : Nat → Bool) : Network → List TransportEvent → Option (Network × List Delivery)
  | n, [] => some (n, [])
  | n, event :: events =>
    match n.dispatch alive event with
    | none => none
    | some (n1, first) =>
      match run alive n1 events with
      | none => none
      | some (n2, later) => some (n2, first ++ later)

end Network

/-- The endpoint a notification is about. -/
def Notification.endpoint : Notification → Endpoint
  | .onConnected endpoint => endpoint
  | .onDisconnected endpoint => endpoint
  | .onMessageText endpoint _ => endpoint
  | .onMessageBinary endpoint _ => endpoint

/-- The calls one listener received about one handle, in order. -/
def received (listener : sp) (hdl : Nat) (deliveries : List Delivery) : List Notification :=
  (deliveries.filter (fun d => d.listener == listener && d.call.endpoint.hdl == hdl)).map
    Delivery.call

/-- Reads a sequence of calls about one handle against the order connect,
messages, disconnect, connect, ...: `isOpen` tells whether the last call so far
left the handle connected; the result is whether it is connected at the end,
and nothing when a call is out of order. -/
def protocol : Bool → List Notification → Option Bool
  | isOpen, [] => some isOpen
  | false, .onConnected _ :: rest => protocol true rest
  | true, .onDisconnected _ :: rest => protocol false rest
  | true, .onMessageText _ _ :: rest => protocol true rest
  | true, .onMessageBinary _ _ :: rest => protocol true rest
  | _, _ :: _ => none

/-- Whether the handle is in the registry of the broker. -/
def Network.registered (n : Network) (hdl : Nat) : Bool :=
  (find n.clients hdl).isSome

/-- What holds of a broker between events: the keys of its map are pairwise
different, every endpoint is stored under its own handle, and its listener
entries are pairwise different. -/
def Network.Consistent (n : Network) : Prop :=
  UniqueKeys n.clients ∧ (∀ kv ∈ n.clients, kv.2.hdl = kv.1) ∧ n.listeners.Nodup

/-- Whether the handle is connected and not yet closed after the event, given
whether it was before. -/
def openAfter (hdl : Nat) (wasOpen : Bool) : TransportEvent → Bool
  | .connected h _ => if h = hdl then true else wasOpen
  | .closed h => if h = hdl then false else wasOpen
  | .message _ _ => wasOpen

/-- Whether the handle is connected and not yet closed after the events. -/
def isOpen (hdl : Nat) (wasOpen : Bool) (events : List TransportEvent) : Bool :=
  events.foldl (openAfter hdl) wasOpen

/-! ## util.hpp : the calls made on a registry -/

/-- A call on an `Observable` from outside; `notify` is with a callback that
does not touch the registry. -/
inductive ObservableCall where
  | subscribe (listener : wp)
  | unsubscibe (listener : wp)
  | notify
  deriving DecidableEq, Repr

namespace Observable

/-- One call, made while the heap is `alive`. -/
def call (alive : Nat → Bool) (o : Observable) : ObservableCall → Observable
  | .subscribe listener => o.subscribe alive listener
  | .unsubscibe listener => o.unsubscibe alive listener
  | .notify => (o.notify alive).1

/-- A sequence of calls, each made in the heap it comes with. -/
def calls : Observable → List ((Nat → Bool) × ObservableCall) → Observable
  | o, [] => o
  | o, (alive, c) :: rest => calls (o.call alive c) rest

end Observable

/-! ## Lobby.hpp : Player -/

/-- `Player::body_t`: a list of coordinate pairs. -/
abbrev body_t := List (Nat × Nat)

/-- A `Player::Message`: its virtual `apply`. -/
structure Message where
  apply : body_t → body_t

/-- A `Player` object: the weak reference to its `Player::Listener`. -/
structure Player where
  listener : wp
  deriving DecidableEq, Repr

/-- What went wrong in a call. -/
inductive Fault where
  | nullDereference
  deriving DecidableEq, Repr

/-- The free `notify(wp<Listener>, Callable)`: the listener the callback is
invoked on.  In the other branch the log line reads `*slistener` through the
empty `slistener`. -/
def notify (alive : Nat → Bool) (listener : wp) : Except Fault sp :=
  match lock alive listener with
  | some slistener => .ok slistener
  | none => .error Fault.nullDereference

/-- A call of `Player::Listener::onGone(player)` on `listener`. -/
structure Gone where
  listener : sp
  player : sp
  deriving DecidableEq, Repr

/-- `Player::onGone` of the player object `self`: the calls it makes on its
listener. -/
def Player.onGone (alive : Nat → Bool) (self : sp) (player : Player) (_client : sp) :
    Except Fault (List Gone) :=
  match notify alive player.listener with
  | .ok listener => .ok [⟨listener, self⟩]
  | .error fault => .error fault

/-- The objects the board works with: `next` is the identity the next
`make_shared` gives, `alive` the objects that exist, `clients` the listener
list of each `Client`, `players` the `Player` objects made so far. -/
structure Heap where
  next : Nat
  alive : Nat → Bool
  clients : sp → Observable
  players : List (sp × Player)

/-- `Player::subscribeOn`: `client->subscribe(shared_from_this())`. -/
def Player.subscribeOn (h : Heap) (self : sp) (client : sp) : Heap :=
  { h with clients := Function.update h.clients client ((h.clients client).subscribe h.alive self) }

/-- `Player::create`: a new `Player` with the listener, subscribed on the
client; the heap afterwards and the new player. -/
def Player.create (h : Heap) (listener : wp) (client : sp) : Heap × sp :=
  let player := h.next
  let made : Heap :=
    { h with
      next := h.next + 1
      alive := fun x => x == player || h.alive x
      players := h.players ++ [(player, ⟨listener⟩)] }
  (Player.subscribeOn made player client, player)

/-! ## Lobby.hpp : GameBoardImpl -/

/-- `board.find(player)`: the body stored under the player. -/
def board_find : List (sp × body_t) → sp → Option body_t
  | [], _ => none
  | (k, v) :: rest, player => if k = player then some v else board_find rest player

/-- `board.erase(p)` for `p = board.find(player)`: unlinks that node. -/
def board_erase : List (sp × body_t) → sp → List (sp × body_t)
  | [], _ => []
  | (k, v) :: rest, player => if k = player then rest else (k, v) :: board_erase rest player

/-- `board[player] = body`: overwrites the body under the player, or adds the
pair when the player is not a key. -/
def board_assign : List (sp × body_t) → sp → body_t → List (sp × body_t)
  | [], player, body => [(player, body)]
  | (k, v) :: rest, player, body =>
    if k = player then (k, body) :: rest else (k, v) :: board_assign rest player body

/-- `GameBoardImpl`: the board and the timer tasks; a task is identified by a
number. -/
structure GameBoardImpl where
  board : List (sp × body_t)
  timer_tasks : List Nat
  deriving DecidableEq, Repr

namespace GameBoardImpl

/-- `GameBoardImpl::placeNewPlayer`. -/
def placeNewPlayer : body_t :=
  []

/-- `GameBoardImpl::adjustBoardState`: it only logs. -/
def adjustBoardState (b : GameBoardImpl) : GameBoardImpl :=
  b

/-- The loop of `GameBoardImpl::init`, `self` being `shared_from_this()`. -/
def initLoop (self : sp) : Heap → GameBoardImpl → List sp → Heap × GameBoardImpl
  | h, b, [] => (h, b)
  | h, b, client :: clients =>
    let created := Player.create h self client
    initLoop self created.1 { b with board := board_assign b.board created.2 placeNewPlayer }
      clients

/-- `GameBoardImpl::init`. -/
def init (self : sp) (h : Heap) (b : GameBoardImpl) (clients : List sp) :
    Heap × GameBoardImpl :=
  let r := initLoop self h b clients
  (r.1, adjustBoardState r.2)

/-- `GameBoardImpl::onGone`. -/
def onGone (b : GameBoardImpl) (player : sp) : GameBoardImpl :=
  match board_find b.board player with
  | none => b
  | some _ => adjustBoardState { b with board := board_erase b.board player }

/-- `GameBoardImpl::onMessage`: the board afterwards and the bodies
`message->apply` was called on. -/
def onMessage (b : GameBoardImpl) (player : sp) (message : Message) :
    GameBoardImpl × List body_t :=
  match board_find b.board player with
  | none => (b, [])
  | some body =>
    let b1 := adjustBoardState b
    ({ b1 with board := board_assign b1.board player (message.apply body) }, [body])

/-- `GameBoardImpl::onTimeout`: the board afterwards and the tasks run, in
order. -/
def onTimeout (b : GameBoardImpl) : GameBoardImpl × List Nat :=
  (b, b.timer_tasks)

end GameBoardImpl

/-- `GameBoard::create`: nothing when `ASSERT(!clients.empty())` fires;
otherwise the heap afterwards, the new board object and its state. -/
def GameBoard.create (h : Heap) (clients : List sp) : Option (Heap × sp × GameBoardImpl) :=
  if clients.isEmpty then none
  else
    let board := h.next
    let made : Heap := { h with next := h.next + 1, alive := fun x => x == board || h.alive x }
    let r := GameBoardImpl.init board made ⟨[], []⟩ clients
    some (r.1, board, r.2)

/-- A call on a board from its player or its timer. -/
inductive BoardCall where
  | onGone (player : sp)
  | onMessage (player : sp) (message : Message)
  | onTimeout

namespace GameBoardImpl

/-- One call: the board afterwards, the bodies an action was applied to and
the tasks run. -/
def call (b : GameBoardImpl) : BoardCall → GameBoardImpl × List body_t × List Nat
  | .onGone player => (b.onGone player, [], [])
  | .onMessage player message => ((b.onMessage player message).1, (b.onMessage player message).2, [])
  | .onTimeout => (b.onTimeout.1, [], b.onTimeout.2)

/-- The board after a sequence of calls. -/
def calls : GameBoardImpl → List BoardCall → GameBoardImpl
  | b, [] => b
  | b, c :: rest => calls (b.call c).1 rest

/-- The boards `GameBoard::create` returns and the boards calls lead to from
them. -/
inductive Reachable : GameBoardImpl → Prop where
  | create (h : Heap) (clients : List sp) (h1 : Heap) (self : sp) (b : GameBoardImpl) :
      GameBoard.create h clients = some (h1, self, b) → Reachable b
  | call (b : GameBoardImpl) (c : BoardCall) : Reachable b → Reachable (b.call c).1

end GameBoardImpl

/-- The keys of the board are pairwise different. -/
def UniquePlayers (board : List (sp × body_t)) : Prop :=
  (board.map Prod.fst).Nodup

instance (board : List (sp × body_t)) : Decidable (UniquePlayers board) := by
  unfold UniquePlayers; infer_instance

/-! ## Notions used to state what a pass does -/

/-- The calls are all `subscribe`. -/
def OnlySubscribes (calls : List RegistryCall) : Prop :=
  ∀ call ∈ calls, ∃ w, call = RegistryCall.subscribe w

/-- The calls are all `unsubscibe`. -/
def OnlyUnsubscribes (calls : List RegistryCall) : Prop :=
  ∀ call ∈ calls, ∃ w, call = RegistryCall.unsubscibe w

/-- An entry survives the `unsubscibe` calls of `calls`: it is expired, or none of
them names it. -/
def kept (alive : Nat → Bool) (calls : List RegistryCall) (x : wp) : Bool :=
  !(alive x && decide (RegistryCall.unsubscibe x ∈ calls))

/-- Where the pool of listeners callbacks may subscribe still has room:
the pool members that are not in the list. -/
def room (pool : List wp) (ls : List wp) : Nat :=
  (pool.toFinset \ ls.toFinset).card

/-! ## Facts about the registry -/

theorem lock_eq_some (alive : Nat → Bool) (w : wp) (s : sp) :
    lock alive w = some s ↔ alive w = true ∧ w = s := by
  unfold lock
  by_cases h : alive w = true <;> simp [h]

theorem lock_of_alive (alive : Nat → Bool) (w : wp) (h : alive w = true) :
    lock alive w = some w := by
  simp [lock, h]

theorem lock_of_dead (alive : Nat → Bool) (w : wp) (h : alive w = false) :
    lock alive w = none := by
  simp [lock, h]

theorem comparator_eq (alive : Nat → Bool) (needed : sp) (w : wp) :
    ListenerComparator alive needed w = (alive w && w == needed) := by
  unfold ListenerComparator lock
  by_cases h : alive w = true <;> simp [h]

theorem find_comparator_none (alive : Nat → Bool) (l : sp) (hl : alive l = true)
    (ls : List wp) :
    ls.find? (ListenerComparator alive l) = none ↔ l ∉ ls := by
  rw [List.find?_eq_none]
  constructor
  · intro h hmem
    have := h l hmem
    simp [comparator_eq, hl] at this
  · intro h x hx
    simp only [comparator_eq, Bool.and_eq_true, beq_iff_eq, not_and]
    intro _ hxl
    exact h (hxl ▸ hx)

theorem notifyLoop_eq (alive : Nat → Bool) (ls : List wp) (e : Bool) (acc : List sp) :
    Observable.notifyLoop alive ls (e, acc)
      = (e || ls.any (expired alive), acc ++ ls.filterMap (lock alive)) := by
  induction ls generalizing e acc with
  | nil => simp [Observable.notifyLoop]
  | cons w rest ih =>
    by_cases h : alive w = true
    · simp [Observable.notifyLoop, lock_of_alive alive w h, ih, expired, h,
        List.filterMap_cons]
    · have h' : alive w = false := by simpa using h
      simp [Observable.notifyLoop, lock_of_dead alive w h', ih, expired, h',
        List.filterMap_cons]

theorem notify_invoked (alive : Nat → Bool) (o : Observable) :
    (o.notify alive).2 = o.listeners.filterMap (lock alive) := by
  simp [Observable.notify, notifyLoop_eq]

theorem notify_registry (alive : Nat → Bool) (o : Observable) :
    (o.notify alive).1
      = if o.listeners.any (expired alive) then o.removeExpired alive else o := by
  simp [Observable.notify, notifyLoop_eq]

theorem filterMap_lock_eq_filter (alive : Nat → Bool) (ls : List wp) :
    ls.filterMap (lock alive) = ls.filter alive := by
  induction ls with
  | nil => rfl
  | cons w rest ih =>
    by_cases h : alive w = true
    · simp [List.filterMap_cons, lock_of_alive alive w h, h, ih]
    · have h' : alive w = false := by simpa using h
      simp [List.filterMap_cons, lock_of_dead alive w h', h', ih]


theorem subscribe_listeners (alive : Nat → Bool) (o : Observable) (l : wp)
    (hl : alive l = true) :
    (o.subscribe alive l).listeners
      = if l ∈ o.listeners then o.listeners else o.listeners ++ [l] := by
  unfold Observable.subscribe
  rw [lock_of_alive alive l hl]
  by_cases hmem : l ∈ o.listeners
  · have hne : o.listeners.find? (ListenerComparator alive l) ≠ none := by
      rw [Ne, find_comparator_none alive l hl]; exact fun h => h hmem
    cases hf : o.listeners.find? (ListenerComparator alive l) with
    | none => exact absurd hf hne
    | some x => simp [hmem, hf]
  · have hf := (find_comparator_none alive l hl o.listeners).2 hmem
    simp [hf, hmem]

theorem subscribe_of_dead (alive : Nat → Bool) (o : Observable) (l : wp)
    (hl : alive l = false) : o.subscribe alive l = o := by
  unfold Observable.subscribe
  rw [lock_of_dead alive l hl]

theorem subscribe_mem (alive : Nat → Bool) (o : Observable) (l : wp) (hl : alive l = true) :
    l ∈ (o.subscribe alive l).listeners := by
  rw [subscribe_listeners alive o l hl]
  by_cases hmem : l ∈ o.listeners <;> simp [hmem]

theorem subscribe_nodup (alive : Nat → Bool) (o : Observable) (l : wp)
    (hinv : o.listeners.Nodup) : (o.subscribe alive l).listeners.Nodup := by
  by_cases hl : alive l = true
  · rw [subscribe_listeners alive o l hl]
    by_cases hmem : l ∈ o.listeners
    · simpa [hmem] using hinv
    · simp only [hmem, if_false]
      rw [List.nodup_append]
      refine ⟨hinv, List.nodup_singleton l, ?_⟩
      intro a ha hb
      rw [List.mem_singleton] at hb
      exact hmem (hb ▸ ha)
  · have hl' : alive l = false := by simpa using hl
    rw [subscribe_of_dead alive o l hl']; exact hinv

theorem subscribe_subscribe (alive : Nat → Bool) (o : Observable) (l : wp) :
    (o.subscribe alive l).subscribe alive l = o.subscribe alive l := by
  by_cases hl : alive l = true
  · have hmem := subscribe_mem alive o l hl
    cases h : o.subscribe alive l with
    | mk ls =>
      have h2 := subscribe_listeners alive ⟨ls⟩ l hl
      rw [h] at hmem
      simp only [hmem, if_true] at h2
      cases h3 : Observable.subscribe alive ⟨ls⟩ l with
      | mk ls2 => rw [h3] at h2; simp at h2; rw [h2]
  · have hl' : alive l = false := by simpa using hl
    rw [subscribe_of_dead alive o l hl', subscribe_of_dead alive o l hl']

theorem subscribe_iterate (alive : Nat → Bool) (o : Observable) (l : wp) (n : Nat) :
    (fun r => Observable.subscribe alive r l)^[n + 1] o = o.subscribe alive l := by
  induction n with
  | zero => rfl
  | succ k ih =>
    rw [Function.iterate_succ_apply']
    rw [ih, subscribe_subscribe]

theorem unsubscibe_listeners (alive : Nat → Bool) (o : Observable) (l : wp)
    (hl : alive l = true) :
    (o.unsubscibe alive l).listeners = o.listeners.filter (fun w => !(alive w && w == l)) := by
  unfold Observable.unsubscibe
  rw [lock_of_alive alive l hl]
  simp only
  apply List.filter_congr
  intro x _
  rw [comparator_eq]

theorem unsubscibe_nodup (alive : Nat → Bool) (o : Observable) (l : wp)
    (hinv : o.listeners.Nodup) : (o.unsubscibe alive l).listeners.Nodup := by
  unfold Observable.unsubscibe
  cases lock alive l with
  | none => exact hinv
  | some s => exact hinv.filter _

theorem notify_nodup (alive : Nat → Bool) (o : Observable)
    (hinv : o.listeners.Nodup) : (o.notify alive).1.listeners.Nodup := by
  rw [notify_registry]
  by_cases h : o.listeners.any (expired alive) = true
  · rw [if_pos h]; exact hinv.filter _
  · rw [if_neg h]; exact hinv

theorem run_nil (alive : Nat → Bool) (c : Cursor) : Cursor.run alive [] c = some c := rfl

theorem notifyFrom_quiet (alive : Nat → Bool) (callback : sp → List RegistryCall)
    (hquiet : ∀ l, callback l = []) (rest : List wp) :
    ∀ (fuel : Nat) (before : List wp) (e : Bool) (invoked : List sp),
      rest.length ≤ fuel →
      Observable.notifyFrom alive callback fuel before rest e invoked
        = .finished (before ++ rest, e || rest.any (expired alive),
            invoked ++ rest.filterMap (lock alive)) := by
  induction rest with
  | nil =>
    intro fuel before e invoked _
    cases fuel <;> simp [Observable.notifyFrom]
  | cons w rest ih =>
    intro fuel before e invoked hfuel
    cases fuel with
    | zero => simp at hfuel
    | succ fuel =>
      have hlen : rest.length ≤ fuel := by simpa using hfuel
      by_cases h : alive w = true
      · simp [Observable.notifyFrom, lock_of_alive alive w h, hquiet, run_nil,
          ih fuel _ _ _ hlen, expired, h, List.filterMap_cons]
      · have h' : alive w = false := by simpa using h
        simp [Observable.notifyFrom, lock_of_dead alive w h', ih fuel _ _ _ hlen, expired, h',
          List.filterMap_cons]

theorem notifyWith_quiet (alive : Nat → Bool) (callback : sp → List RegistryCall)
    (hquiet : ∀ l, callback l = []) (fuel : Nat) (o : Observable)
    (hfuel : o.listeners.length ≤ fuel) :
    o.notifyWith alive callback fuel = .finished (o.notify alive) := by
  unfold Observable.notifyWith
  rw [notifyFrom_quiet alive callback hquiet o.listeners fuel [] false [] hfuel]
  simp [Observable.notify, notifyLoop_eq]


/-! ## The registry: subscribe, unsubscibe, notify -/

/-- C1: in a registry whose entries are pairwise different (every registry
built from the empty one is), calling `subscribe(l)` any number `n ≥ 1` of
times with a live `l` gives the registry one call gives, it holds exactly one
entry for `l`, and the `notify` that follows invokes the callback on `l`
exactly once. -/
theorem subscribe_repeated_one_entry (alive : Nat → Bool) (o : Observable) (l : wp) (n : Nat)
    (hl : alive l = true) (hn : 1 ≤ n) (hinv : o.listeners.Nodup) :
    (fun r => Observable.subscribe alive r l)^[n] o = o.subscribe alive l ∧
    ((fun r => Observable.subscribe alive r l)^[n] o).listeners.count l = 1 ∧
    (((fun r => Observable.subscribe alive r l)^[n] o).notify alive).2.count l = 1 := by
  obtain ⟨k, rfl⟩ : ∃ k, n = k + 1 := ⟨n - 1, by omega⟩
  rw [subscribe_iterate]
  have hone : (o.subscribe alive l).listeners.count l = 1 :=
    List.count_eq_one_of_mem (subscribe_nodup alive o l hinv) (subscribe_mem alive o l hl)
  refine ⟨rfl, hone, ?_⟩
  rw [notify_invoked, filterMap_lock_eq_filter, List.count_filter (by simpa using hl)]
  exact hone

/-- C1, at a registry holding listeners 5 and 7, subscribing 5 twice. -/
theorem subscribe_repeated_one_entry_witness :
    ((fun r => Observable.subscribe (fun _ => true) r 5)^[2] ⟨[5, 7]⟩).listeners.count 5 = 1 ∧
    (((fun r => Observable.subscribe (fun _ => true) r 5)^[2] ⟨[5, 7]⟩).notify
      (fun _ => true)).2.count 5 = 1 :=
  (subscribe_repeated_one_entry (fun _ => true) ⟨[5, 7]⟩ 5 2 rfl (by decide) (by decide)).2

/-- C2: after `unsubscibe(l)` with a live `l`, the `notify` that follows
invokes the callback on exactly the listeners it would have been invoked on
before, in the same order, with `l` left out; in particular never on `l`. -/
theorem unsubscibe_then_notify (alive : Nat → Bool) (o : Observable) (l : wp)
    (hl : alive l = true) :
    ((o.unsubscibe alive l).notify alive).2 = (o.notify alive).2.filter (fun x => x != l) ∧
    l ∉ ((o.unsubscibe alive l).notify alive).2 := by
  have key : ((o.unsubscibe alive l).notify alive).2
      = (o.notify alive).2.filter (fun x => x != l) := by
    rw [notify_invoked, notify_invoked, filterMap_lock_eq_filter, filterMap_lock_eq_filter,
      unsubscibe_listeners alive o l hl, List.filter_filter, List.filter_filter]
    apply List.filter_congr
    intro x _
    cases hx : alive x <;> cases hxl : (x == l) <;> simp [bne, hxl]
  refine ⟨key, ?_⟩
  rw [key]
  simp

/-- C2, at the registry [1, 2, 3] with 2 removed. -/
theorem unsubscibe_then_notify_witness :
    (((⟨[1, 2, 3]⟩ : Observable).unsubscibe (fun _ => true) 2).notify (fun _ => true)).2
      = [1, 3] :=
  (unsubscibe_then_notify (fun _ => true) ⟨[1, 2, 3]⟩ 2 rfl).1

/-- C4: with a callback that makes no call on the registry, and fuel for one
step per entry, `notify` finishes; the callback has been invoked on the live
entries, in insertion order, once per entry and on no expired one (so exactly
once on each live subscriber when the entries are pairwise different); if an
entry was expired the registry afterwards is the live entries in their
original order, and otherwise it is unchanged. -/
theorem notify_quiet_callback (alive : Nat → Bool) (callback : sp → List RegistryCall)
    (fuel : Nat) (o : Observable) (hquiet : ∀ l, callback l = [])
    (hfuel : o.listeners.length ≤ fuel) :
    ∃ o1 invoked, o.notifyWith alive callback fuel = .finished (o1, invoked) ∧
      invoked = o.listeners.filter alive ∧
      (∀ l ∈ invoked, alive l = true) ∧
      (o.listeners.Nodup → ∀ l ∈ o.listeners, alive l = true → invoked.count l = 1) ∧
      ((∃ w ∈ o.listeners, alive w = false) → o1.listeners = o.listeners.filter alive) ∧
      ((∀ w ∈ o.listeners, alive w = true) → o1 = o) := by
  refine ⟨(o.notify alive).1, (o.notify alive).2,
    notifyWith_quiet alive callback hquiet fuel o hfuel, ?_, ?_, ?_, ?_, ?_⟩
  · rw [notify_invoked, filterMap_lock_eq_filter]
  · intro l hmem
    rw [notify_invoked, filterMap_lock_eq_filter] at hmem
    exact (List.mem_filter.1 hmem).2
  · intro hinv l hmem hl
    rw [notify_invoked, filterMap_lock_eq_filter, List.count_filter (by simpa using hl)]
    exact List.count_eq_one_of_mem hinv hmem
  · rintro ⟨w, hw, hdead⟩
    have hany : o.listeners.any (expired alive) = true :=
      List.any_eq_true.2 ⟨w, hw, by simp [expired, hdead]⟩
    rw [notify_registry, if_pos hany]
    simp only [Observable.removeExpired]
    apply List.filter_congr
    intro x _
    simp [expired]
  · intro hall
    have hany : ¬ o.listeners.any (expired alive) = true := by
      rw [List.any_eq_true]
      rintro ⟨w, hw, hexp⟩
      simp [expired, hall w hw] at hexp
    rw [notify_registry, if_neg hany]

/-- C4, at the registry [1, 0, 2, 0] where listener 0 has expired. -/
theorem notify_quiet_callback_witness :
    ∃ o1 invoked,
      (⟨[1, 0, 2, 0]⟩ : Observable).notifyWith (fun x => x != 0) (fun _ => []) 4
        = .finished (o1, invoked) ∧
      invoked = [1, 2] ∧ o1.listeners = [1, 2] := by
  obtain ⟨o1, invoked, hrun, hinv, _, _, hprune, _⟩ :=
    notify_quiet_callback (fun x => x != 0) (fun _ => []) 4 ⟨[1, 0, 2, 0]⟩
      (fun _ => rfl) (by decide)
  exact ⟨o1, invoked, hrun, by rw [hinv]; decide, by rw [hprune ⟨0, by decide, by decide⟩]; decide⟩


/-! ## Callbacks that call back into the registry -/

theorem room_le (pool ls : List wp) : room pool ls ≤ pool.length := by
  unfold room
  calc (pool.toFinset \ ls.toFinset).card ≤ pool.toFinset.card :=
        Finset.card_le_card Finset.sdiff_subset
    _ ≤ pool.length := List.toFinset_card_le pool

theorem room_append_singleton (pool ls : List wp) (w : wp) (hw : w ∈ pool) (hnew : w ∉ ls) :
    room pool (ls ++ [w]) + 1 = room pool ls := by
  unfold room
  have hmem : w ∈ pool.toFinset \ ls.toFinset := by
    simp [hw, hnew]
  have heq : pool.toFinset \ (ls ++ [w]).toFinset = (pool.toFinset \ ls.toFinset).erase w := by
    ext x
    simp only [List.toFinset_append, List.toFinset_cons, List.toFinset_nil, Finset.mem_sdiff,
      Finset.mem_union, Finset.mem_insert, Finset.mem_erase, List.mem_toFinset,
      insert_emptyc_eq, Finset.mem_singleton]
    tauto
  rw [heq, Finset.card_erase_of_mem hmem]
  have : 0 < (pool.toFinset \ ls.toFinset).card := Finset.card_pos.2 ⟨w, hmem⟩
  omega

theorem cursor_subscribe_eq (alive : Nat → Bool) (c : Cursor) (w : wp) :
    c.subscribe alive w
      = if alive w = true ∧ w ∉ c.toList then { c with after := c.after ++ [w] } else c := by
  unfold Cursor.subscribe
  by_cases hl : alive w = true
  · rw [lock_of_alive alive w hl]
    by_cases hmem : w ∈ c.toList
    · have hne : c.toList.find? (ListenerComparator alive w) ≠ none := by
        rw [Ne, find_comparator_none alive w hl]; exact fun h => h hmem
      cases hf : c.toList.find? (ListenerComparator alive w) with
      | none => exact absurd hf hne
      | some x => simp [hmem, hf]
    · have hf := (find_comparator_none alive w hl c.toList).2 hmem
      simp [hf, hmem, hl]
  · have hl' : alive w = false := by simpa using hl
    rw [lock_of_dead alive w hl']
    simp [hl']

theorem run_only_subscribes (alive : Nat → Bool) (pool : List wp) (calls : List RegistryCall) :
    ∀ c : Cursor, OnlySubscribes calls →
      (∀ w, RegistryCall.subscribe w ∈ calls → w ∈ pool) →
      ∃ added, Cursor.run alive calls c = some ⟨c.before, c.cur, c.after ++ added⟩ ∧
        (∀ a ∈ added, alive a = true) ∧
        (∀ a ∈ added, a ∉ c.toList) ∧
        (∀ w, RegistryCall.subscribe w ∈ calls → alive w = true → w ∈ c.toList ++ added) ∧
        added.length + room pool (c.toList ++ added) ≤ room pool c.toList := by
  induction calls with
  | nil =>
    intro c _ _
    exact ⟨[], by simp [Cursor.run], by simp, by simp, by simp, by simp⟩
  | cons call calls ih =>
    intro c honly hpool
    obtain ⟨w, rfl⟩ := honly call (List.mem_cons_self _ _)
    have honly2 : OnlySubscribes calls := fun x hx => honly x (List.mem_cons_of_mem _ hx)
    have hpool2 : ∀ x, RegistryCall.subscribe x ∈ calls → x ∈ pool :=
      fun x hx => hpool x (List.mem_cons_of_mem _ hx)
    simp only [Cursor.run]
    rw [cursor_subscribe_eq]
    by_cases hadd : alive w = true ∧ w ∉ c.toList
    · rw [if_pos hadd]
      obtain ⟨added, hrun, halive, hfresh, hsub, hroom⟩ :=
        ih { c with after := c.after ++ [w] } honly2 hpool2
      have hlist : ({ c with after := c.after ++ [w] } : Cursor).toList = c.toList ++ [w] := by
        simp [Cursor.toList]
      rw [hlist] at hfresh hsub hroom
      refine ⟨w :: added, ?_, ?_, ?_, ?_, ?_⟩
      · rw [hrun]; simp
      · intro a ha
        rcases List.mem_cons.1 ha with rfl | ha
        · exact hadd.1
        · exact halive a ha
      · intro a ha
        rcases List.mem_cons.1 ha with rfl | ha
        · exact hadd.2
        · intro hmem
          exact hfresh a ha (List.mem_append_left _ hmem)
      · intro x hx hxalive
        rcases List.mem_cons.1 hx with hx | hx
        · cases hx
          simp
        · have := hsub x hx hxalive
          simpa using this
      · have h1 := room_append_singleton pool c.toList w
          (hpool w (List.mem_cons_self _ _)) hadd.2
        have h2 : c.toList ++ w :: added = c.toList ++ [w] ++ added := by simp
        rw [h2]
        simp only [List.length_cons]
        omega
    · rw [if_neg hadd]
      obtain ⟨added, hrun, halive, hfresh, hsub, hroom⟩ := ih c honly2 hpool2
      refine ⟨added, hrun, halive, hfresh, ?_, hroom⟩
      intro x hx hxalive
      rcases List.mem_cons.1 hx with hx | hx
      · cases hx
        have : w ∈ c.toList := by
          by_contra hnot
          exact hadd ⟨hxalive, hnot⟩
        exact List.mem_append_left _ this
      · exact hsub x hx hxalive


theorem any_expired_of_alive (alive : Nat → Bool) (ls : List wp)
    (h : ∀ a ∈ ls, alive a = true) : ls.any (expired alive) = false := by
  rw [Bool.eq_false_iff, Ne, List.any_eq_true]
  rintro ⟨x, hx, hexp⟩
  simp [expired, h x hx] at hexp

theorem filter_alive_of_alive (alive : Nat → Bool) (ls : List wp)
    (h : ∀ a ∈ ls, alive a = true) : ls.filter alive = ls :=
  List.filter_eq_self.2 h

theorem notifyFrom_only_subscribes (alive : Nat → Bool) (callback : sp → List RegistryCall)
    (pool : List wp) (honly : ∀ l, OnlySubscribes (callback l))
    (hpool : ∀ l w, RegistryCall.subscribe w ∈ callback l → w ∈ pool) :
    ∀ (fuel : Nat) (before rest : List wp) (e : Bool) (inv : List sp),
      rest.length + room pool (before ++ rest) ≤ fuel →
      ∃ added,
        Observable.notifyFrom alive callback fuel before rest e inv
          = .finished (before ++ rest ++ added, e || rest.any (expired alive),
              inv ++ (rest ++ added).filter alive) ∧
        (∀ a ∈ added, alive a = true) ∧
        (∀ a ∈ added, a ∉ before ++ rest) ∧
        (∀ m ∈ (rest ++ added).filter alive, ∀ w, RegistryCall.subscribe w ∈ callback m →
          alive w = true → w ∈ before ++ rest ++ added) := by
  intro fuel
  induction fuel with
  | zero =>
    intro before rest e inv hfuel
    have hrest : rest = [] := by
      cases rest with
      | nil => rfl
      | cons w after => simp at hfuel
    subst hrest
    exact ⟨[], by simp [Observable.notifyFrom], by simp, by simp, by simp⟩
  | succ fuel ih =>
    intro before rest e inv hfuel
    cases rest with
    | nil => exact ⟨[], by simp [Observable.notifyFrom], by simp, by simp, by simp⟩
    | cons w after =>
      by_cases hw : alive w = true
      · obtain ⟨added1, hrun, halive1, hfresh1, hsub1, hroom1⟩ :=
          run_only_subscribes alive pool (callback w) ⟨before, w, after⟩ (honly w) (hpool w)
        simp only [Cursor.toList] at hfresh1 hsub1 hroom1
        have hbound : (after ++ added1).length
            + room pool ((before ++ [w]) ++ (after ++ added1)) ≤ fuel := by
          have h1 : (before ++ [w]) ++ (after ++ added1) = before ++ w :: after ++ added1 := by
            simp
          rw [h1]
          simp only [List.length_append, List.length_cons] at hfuel ⊢
          omega
        obtain ⟨added2, hloop, halive2, hfresh2, hsub2⟩ :=
          ih (before ++ [w]) (after ++ added1) e (inv ++ [w]) hbound
        refine ⟨added1 ++ added2, ?_, ?_, ?_, ?_⟩
        · simp only [Observable.notifyFrom, lock_of_alive alive w hw, hrun, hloop]
          have hany : (after ++ added1).any (expired alive) = after.any (expired alive) := by
            rw [List.any_append, any_expired_of_alive alive added1 halive1, Bool.or_false]
          simp [hany, expired, hw, List.filter_cons]
        · intro a ha
          rcases List.mem_append.1 ha with ha | ha
          · exact halive1 a ha
          · exact halive2 a ha
        · intro a ha
          rcases List.mem_append.1 ha with ha | ha
          · exact hfresh1 a ha
          · intro hmem
            apply hfresh2 a ha
            simp only [List.mem_append, List.mem_cons, List.mem_singleton] at hmem ⊢
            tauto
        · intro m hm x hx hxalive
          simp only [List.cons_append, List.filter_cons, hw, if_true, List.mem_cons] at hm
          rcases hm with rfl | hm
          · have := hsub1 x hx hxalive
            simp only [List.mem_append, List.mem_cons] at this ⊢
            tauto
          · have hm2 : m ∈ List.filter alive (after ++ added1 ++ added2) := by
              simpa [List.append_assoc] using hm
            have := hsub2 m hm2 x hx hxalive
            simp only [List.mem_append, List.mem_cons, List.mem_singleton] at this ⊢
            tauto
      · have hw' : alive w = false := by simpa using hw
        have hbound : after.length + room pool ((before ++ [w]) ++ after) ≤ fuel := by
          have h1 : (before ++ [w]) ++ after = before ++ w :: after := by simp
          rw [h1]
          simp only [List.length_cons] at hfuel
          omega
        obtain ⟨added, hloop, halive, hfresh, hsub⟩ :=
          ih (before ++ [w]) after true inv hbound
        refine ⟨added, ?_, halive, ?_, ?_⟩
        · simp only [Observable.notifyFrom, lock_of_dead alive w hw', hloop]
          simp [expired, hw', List.filter_cons]
        · intro a ha hmem
          apply hfresh a ha
          simp only [List.mem_append, List.mem_cons, List.mem_singleton] at hmem ⊢
          tauto
        · intro m hm x hx hxalive
          have hm2 : m ∈ List.filter alive (after ++ added) := by
            simpa [List.filter_cons, hw'] using hm
          have := hsub m hm2 x hx hxalive
          simp only [List.mem_append, List.mem_cons, List.mem_singleton] at this ⊢
          tauto


theorem cursor_unsubscibe_eq (alive : Nat → Bool) (c : Cursor) (s : wp) :
    c.unsubscibe alive s
      = if alive s = true then
          (if alive c.cur = true ∧ c.cur = s then none
           else some
            { before := c.before.filter (fun x => !(alive x && x == s))
              cur := c.cur
              after := c.after.filter (fun x => !(alive x && x == s)) })
        else some c := by
  unfold Cursor.unsubscibe
  by_cases hs : alive s = true
  · rw [lock_of_alive alive s hs, if_pos hs]
    simp only [comparator_eq]
    by_cases hc : alive c.cur = true ∧ c.cur = s
    · simp [hc.1, hc.2]
    · rw [if_neg hc]
      have : ¬ ((alive c.cur && c.cur == s) = true) := by
        simpa using hc
      rw [if_neg this]
  · have hs' : alive s = false := by simpa using hs
    rw [lock_of_dead alive s hs', if_neg hs]

theorem kept_cons (alive : Nat → Bool) (s : wp) (calls : List RegistryCall) (x : wp) :
    kept alive (RegistryCall.unsubscibe s :: calls) x
      = (!(alive x && x == s) && kept alive calls x) := by
  unfold kept
  by_cases hxs : x = s
  · subst hxs
    cases alive x <;> simp
  · have : ¬ (RegistryCall.unsubscibe x = RegistryCall.unsubscibe s) := by
      intro h; injection h with h; exact hxs h
    cases alive x <;> simp [hxs, this]

theorem kept_of_dead (alive : Nat → Bool) (calls : List RegistryCall) (x : wp)
    (hx : alive x = false) : kept alive calls x = true := by
  simp [kept, hx]

theorem kept_of_absent (alive : Nat → Bool) (calls : List RegistryCall) (x : wp)
    (hx : RegistryCall.unsubscibe x ∉ calls) : kept alive calls x = true := by
  simp [kept, hx]

theorem not_kept (alive : Nat → Bool) (calls : List RegistryCall) (x : wp)
    (hx : RegistryCall.unsubscibe x ∈ calls) (hal : alive x = true) :
    kept alive calls x = false := by
  simp [kept, hx, hal]

theorem run_only_unsubscribes (alive : Nat → Bool) (calls : List RegistryCall) :
    ∀ c : Cursor, OnlyUnsubscribes calls → kept alive calls c.cur = true →
      Cursor.run alive calls c
        = some ⟨c.before.filter (kept alive calls), c.cur, c.after.filter (kept alive calls)⟩ := by
  induction calls with
  | nil =>
    intro c _ _
    have : kept alive [] = fun _ => true := by
      funext x; simp [kept]
    simp [Cursor.run, this]
  | cons call calls ih =>
    intro c honly hcur
    obtain ⟨s, rfl⟩ := honly call (List.mem_cons_self _ _)
    have honly2 : OnlyUnsubscribes calls := fun x hx => honly x (List.mem_cons_of_mem _ hx)
    rw [kept_cons] at hcur
    simp only [Bool.and_eq_true] at hcur
    have hfun : kept alive (RegistryCall.unsubscibe s :: calls)
        = fun x => (!(alive x && x == s) && kept alive calls x) := by
      funext x; exact kept_cons alive s calls x
    simp only [Cursor.run]
    rw [cursor_unsubscibe_eq]
    by_cases hs : alive s = true
    · rw [if_pos hs]
      have hnot : ¬ (alive c.cur = true ∧ c.cur = s) := by
        rintro ⟨h1, h2⟩
        have := hcur.1
        simp [h1, h2] at this
        rw [hs] at this
        exact Bool.noConfusion this
      rw [if_neg hnot]
      simp only
      have hstep := ih ⟨c.before.filter (fun x => !(alive x && x == s)), c.cur,
        c.after.filter (fun x => !(alive x && x == s))⟩ honly2 hcur.2
      rw [hstep, hfun]
      simp only [List.filter_filter]
      congr 2
      · congr 1
        funext x
        exact Bool.and_comm _ _
      · congr 1
        funext x
        exact Bool.and_comm _ _
    · have hs' : alive s = false := by simpa using hs
      rw [if_neg hs]
      simp only
      rw [ih c honly2 hcur.2, hfun]
      have hcongr : ∀ ls : List wp,
          ls.filter (fun x => (!(alive x && x == s) && kept alive calls x))
            = ls.filter (kept alive calls) := by
        intro ls
        apply List.filter_congr
        intro x _
        by_cases hxs : x = s
        · subst hxs; simp [hs']
        · simp [hxs]
      rw [hcongr, hcongr]


theorem any_expired_filter_kept (alive : Nat → Bool) (calls : List RegistryCall)
    (ls : List wp) :
    (ls.filter (kept alive calls)).any (expired alive) = ls.any (expired alive) := by
  induction ls with
  | nil => rfl
  | cons x rest ih =>
    cases hx : alive x
    · simp [List.filter_cons, kept_of_dead alive calls x hx, expired, hx]
    · by_cases hk : kept alive calls x = true
      · simp [List.filter_cons, hk, ih, expired, hx]
      · simp [List.filter_cons, hk, ih, expired, hx]

theorem stands_before_of_filter (p : wp → Bool) (m l : wp) (xs : List wp) :
    (∃ r1 r2, xs.filter p = r1 ++ l :: r2 ∧ m ∈ r1) →
      ∃ a1 a2, xs = a1 ++ l :: a2 ∧ m ∈ a1 := by
  induction xs with
  | nil =>
    rintro ⟨r1, r2, h, _⟩
    simp at h
  | cons x rest ih =>
    rintro ⟨r1, r2, h, hm⟩
    by_cases hp : p x = true
    · rw [List.filter_cons, if_pos hp] at h
      cases r1 with
      | nil => cases hm
      | cons y r1' =>
        simp only [List.cons_append, List.cons.injEq] at h
        obtain ⟨hxy, hrest⟩ := h
        rcases List.mem_cons.1 hm with hm | hm
        · have hl : l ∈ rest := by
            have : l ∈ rest.filter p := by
              rw [hrest]
              simp
            exact (List.mem_filter.1 this).1
          obtain ⟨b1, b2, hb⟩ := List.append_of_mem hl
          refine ⟨x :: b1, b2, by rw [hb]; rfl, ?_⟩
          rw [hm, ← hxy]
          exact List.mem_cons_self _ _
        · obtain ⟨a1, a2, ha, hma⟩ := ih ⟨r1', r2, hrest, hm⟩
          exact ⟨x :: a1, a2, by rw [ha]; rfl, List.mem_cons_of_mem _ hma⟩
    · rw [List.filter_cons, if_neg hp] at h
      obtain ⟨a1, a2, ha, hma⟩ := ih ⟨r1, r2, h, hm⟩
      exact ⟨x :: a1, a2, by rw [ha]; rfl, List.mem_cons_of_mem _ hma⟩

theorem notifyFrom_only_unsubscribes (alive : Nat → Bool) (callback : sp → List RegistryCall)
    (honly : ∀ l, OnlyUnsubscribes (callback l))
    (hself : ∀ l, RegistryCall.unsubscibe l ∉ callback l) :
    ∀ (fuel : Nat) (before rest : List wp) (e : Bool) (inv : List sp),
      rest.length ≤ fuel →
      ∃ ls new,
        Observable.notifyFrom alive callback fuel before rest e inv
          = .finished (ls, e || rest.any (expired alive), inv ++ new) ∧
        new.Sublist (rest.filter alive) ∧
        ls.Sublist (before ++ rest) ∧
        (∀ l ∈ rest, alive l = true → (∀ m, RegistryCall.unsubscibe l ∉ callback m) →
          l ∈ new) ∧
        (∀ m ∈ new, ∀ l, RegistryCall.unsubscibe l ∈ callback m → alive l = true →
          l ∉ ls) ∧
        (∀ pre m post, new = pre ++ m :: post → ∀ l,
          RegistryCall.unsubscibe l ∈ callback m → alive l = true → l ∉ post) ∧
        (∀ l ∈ rest, alive l = true → l ∉ new →
          ∃ m ∈ new, RegistryCall.unsubscibe l ∈ callback m ∧
            ∃ r1 r2, rest = r1 ++ l :: r2 ∧ m ∈ r1) := by
  intro fuel
  induction fuel with
  | zero =>
    intro before rest e inv hfuel
    have hrest : rest = [] := List.eq_nil_of_length_eq_zero (by omega)
    subst hrest
    exact ⟨before, [], by simp [Observable.notifyFrom], by simp, by simp, by simp, by simp,
      by simp, by simp⟩
  | succ fuel ih =>
    intro before rest e inv hfuel
    cases rest with
    | nil =>
      exact ⟨before, [], by simp [Observable.notifyFrom], by simp, by simp, by simp, by simp,
        by simp, by simp⟩
    | cons w after =>
      by_cases hw : alive w = true
      · have hcur : kept alive (callback w) w = true := kept_of_absent alive _ w (hself w)
        have hrun := run_only_unsubscribes alive (callback w) ⟨before, w, after⟩ (honly w) hcur
        simp only at hrun
        have hlen : (after.filter (kept alive (callback w))).length ≤ fuel := by
          have := List.length_filter_le (kept alive (callback w)) after
          simp only [List.length_cons] at hfuel
          omega
        obtain ⟨ls, new, hloop, hsub, hls, hall, hgone, hlater, hskip⟩ :=
          ih (before.filter (kept alive (callback w)) ++ [w])
            (after.filter (kept alive (callback w))) e (inv ++ [w]) hlen
        have hls2 : ls.Sublist (before ++ w :: after) := by
          refine hls.trans ?_
          have h1 : before ++ w :: after = (before ++ [w]) ++ after := by simp
          rw [h1]
          exact ((List.filter_sublist before).append (List.Sublist.refl [w])).append
            (List.filter_sublist after)
        refine ⟨ls, w :: new, ?_, ?_, hls2, ?_, ?_, ?_, ?_⟩
        · rw [any_expired_filter_kept] at hloop
          simp only [Observable.notifyFrom, lock_of_alive alive w hw, hrun, hloop]
          simp [expired, hw]
        · rw [List.filter_cons, if_pos hw]
          exact List.Sublist.cons₂ w (hsub.trans ((List.filter_sublist after).filter alive))
        · intro l hl hlalive hnever
          rcases List.mem_cons.1 hl with rfl | hl
          · exact List.mem_cons_self _ _
          · apply List.mem_cons_of_mem
            apply hall l _ hlalive hnever
            exact List.mem_filter.2 ⟨hl, kept_of_absent alive _ l (hnever w)⟩
        · intro m hm l hl hlalive hmem
          rcases List.mem_cons.1 hm with rfl | hm
          · have hnk := not_kept alive (callback m) l hl hlalive
            have hin := hls.subset hmem
            simp only [List.mem_append, List.mem_filter, List.mem_singleton] at hin
            rcases hin with (⟨_, hk⟩ | rfl) | ⟨_, hk⟩
            · rw [hnk] at hk; exact Bool.noConfusion hk
            · exact hself l hl
            · rw [hnk] at hk; exact Bool.noConfusion hk
          · exact hgone m hm l hl hlalive hmem
        · intro pre m post hsplit l hl hlalive hmem
          cases pre with
          | nil =>
            simp only [List.nil_append, List.cons.injEq] at hsplit
            obtain ⟨hwm, hpost⟩ := hsplit
            subst hwm
            subst hpost
            have hin := (List.mem_filter.1 (hsub.subset hmem)).1
            have hk := (List.mem_filter.1 hin).2
            rw [not_kept alive (callback w) l hl hlalive] at hk
            exact Bool.noConfusion hk
          | cons x pre1 =>
            simp only [List.cons_append, List.cons.injEq] at hsplit
            exact hlater pre1 m post hsplit.2 l hl hlalive hmem
        · intro l hl hlalive hnot
          have hlw : l ≠ w := fun h => hnot (h ▸ List.mem_cons_self _ _)
          have hlafter : l ∈ after := by
            rcases List.mem_cons.1 hl with h | h
            · exact absurd h hlw
            · exact h
          have hnot2 : l ∉ new := fun h => hnot (List.mem_cons_of_mem _ h)
          by_cases hk : kept alive (callback w) l = true
          · obtain ⟨m, hm, hcall, hpos⟩ :=
              hskip l (List.mem_filter.2 ⟨hlafter, hk⟩) hlalive hnot2
            obtain ⟨a1, a2, ha, hma⟩ := stands_before_of_filter _ m l after hpos
            exact ⟨m, List.mem_cons_of_mem _ hm, hcall, w :: a1, a2, by rw [ha]; rfl,
              List.mem_cons_of_mem _ hma⟩
          · obtain ⟨b1, b2, hb⟩ := List.append_of_mem hlafter
            refine ⟨w, List.mem_cons_self _ _, ?_, w :: b1, b2, by rw [hb]; rfl,
              List.mem_cons_self _ _⟩
            by_contra hno
            exact hk (kept_of_absent alive _ l hno)
      · have hw' : alive w = false := by simpa using hw
        have hlen : after.length ≤ fuel := by simpa using hfuel
        obtain ⟨ls, new, hloop, hsub, hls, hall, hgone, hlater, hskip⟩ :=
          ih (before ++ [w]) after true inv hlen
        refine ⟨ls, new, ?_, ?_, ?_, ?_, hgone, hlater, ?_⟩
        · simp only [Observable.notifyFrom, lock_of_dead alive w hw', hloop]
          simp [expired, hw']
        · simpa [List.filter_cons, hw'] using hsub
        · simpa using hls
        · intro l hl hlalive hnever
          rcases List.mem_cons.1 hl with rfl | hl
          · rw [hw'] at hlalive; exact Bool.noConfusion hlalive
          · exact hall l hl hlalive hnever
        · intro l hl hlalive hnot
          rcases List.mem_cons.1 hl with rfl | hl
          · rw [hw'] at hlalive; exact Bool.noConfusion hlalive
          · obtain ⟨m, hm, hcall, a1, a2, ha, hma⟩ := hskip l hl hlalive hnot
            exact ⟨m, hm, hcall, w :: a1, a2, by rw [ha]; rfl, List.mem_cons_of_mem _ hma⟩

theorem notifyFrom_chain (fuel : Nat) :
    ∀ (before : List wp) (k : Nat) (e : Bool) (inv : List sp), (∀ x ∈ before, x < k) →
      Observable.notifyFrom (fun _ => true) (fun l => [RegistryCall.subscribe (l + 1)]) fuel
        before [k] e inv = .outOfFuel := by
  induction fuel with
  | zero =>
    intro before k e inv _
    rfl
  | succ fuel ih =>
    intro before k e inv hbefore
    have hnew : k + 1 ∉ Cursor.toList ⟨before, k, []⟩ := by
      intro hmem
      simp only [Cursor.toList, List.mem_append, List.mem_singleton] at hmem
      rcases hmem with hmem | hmem
      · exact absurd (hbefore _ hmem) (Nat.not_lt.2 (Nat.le_succ k))
      · exact absurd hmem (Nat.succ_ne_self k)
    have hsub := cursor_subscribe_eq (fun _ => true) ⟨before, k, []⟩ (k + 1)
    rw [if_pos ⟨rfl, hnew⟩] at hsub
    have hrun : Cursor.run (fun _ => true) [RegistryCall.subscribe (k + 1)] ⟨before, k, []⟩
        = some ⟨before, k, [k + 1]⟩ := by
      show Cursor.run (fun _ => true) []
        (Cursor.subscribe (fun _ => true) ⟨before, k, []⟩ (k + 1)) = _
      rw [hsub]
      rfl
    have hnext : ∀ x ∈ before ++ [k], x < k + 1 := by
      intro x hx
      rcases List.mem_append.1 hx with hx | hx
      · exact Nat.lt_succ_of_lt (hbefore x hx)
      · rw [List.mem_singleton] at hx
        rw [hx]
        exact Nat.lt_succ_self _
    have hlock : lock (fun _ => true) k = some k := lock_of_alive _ k rfl
    simp only [Observable.notifyFrom, hlock, hrun]
    exact ih (before ++ [k]) (k + 1) e (inv ++ [k]) hnext


/-- C3 (as the code has it): `notify` walks the listener list itself, not a
snapshot of it.  With callbacks that only subscribe, and subscribe listeners
out of a finite `pool`, the pass finishes within one step per entry and per
pool member, has invoked the callback on the live subscribers present when it
began, in insertion order, and after them, in the same pass, on every listener
`added` by a callback; whatever live listener an invoked callback subscribed
has been invoked; and the registry afterwards is what a pass without calls
leaves, followed by the added listeners.  With callbacks that only unsubscribe
listeners other than the one being notified the pass finishes within one step
per entry and has invoked, in insertion order, only live subscribers present
when it began, among them every one that no callback unsubscribes; a listener
that the callback of an invoked listener unsubscribes is not invoked later in
the pass, so it is not invoked in the pass at all unless it had been invoked
before; a live subscriber that was not invoked was unsubscribed by the callback
of an invoked listener that stands before it in the registry; and a listener
unsubscribed by an invoked callback is not in the registry afterwards, whose
entries are entries of the registry before.  Without a finite pool the pass need not end: from the registry [0],
when the callback of each listener `l` subscribes the listener `l + 1`, it runs
out of every fuel. -/
theorem notify_walks_the_list (alive : Nat → Bool) (o : Observable)
    (adding removing : sp → List RegistryCall) (pool : List wp) (fuel : Nat)
    (hadding : ∀ l, OnlySubscribes (adding l))
    (hpool : ∀ l w, RegistryCall.subscribe w ∈ adding l → w ∈ pool)
    (hremoving : ∀ l, OnlyUnsubscribes (removing l))
    (hself : ∀ l, RegistryCall.unsubscibe l ∉ removing l)
    (hfuel : o.listeners.length + pool.length ≤ fuel) :
    (∃ o1 added,
      o.notifyWith alive adding fuel = .finished (o1, o.listeners.filter alive ++ added) ∧
      (∀ a ∈ added, alive a = true ∧ a ∉ o.listeners) ∧
      (∀ m ∈ o.listeners.filter alive ++ added, ∀ w, RegistryCall.subscribe w ∈ adding m →
        alive w = true → w ∈ o.listeners.filter alive ++ added) ∧
      o1.listeners = (o.notify alive).1.listeners ++ added) ∧
    (∃ o2 invoked,
      o.notifyWith alive removing fuel = .finished (o2, invoked) ∧
      invoked.Sublist (o.listeners.filter alive) ∧
      (∀ l ∈ o.listeners, alive l = true → (∀ m, RegistryCall.unsubscibe l ∉ removing m) →
        l ∈ invoked) ∧
      (∀ m ∈ invoked, ∀ l, RegistryCall.unsubscibe l ∈ removing m → alive l = true →
        l ∉ o2.listeners) ∧
      o2.listeners.Sublist o.listeners ∧
      (∀ pre m post, invoked = pre ++ m :: post → ∀ l,
        RegistryCall.unsubscibe l ∈ removing m → alive l = true →
          l ∉ post ∧ (l ∉ pre → l ∉ invoked)) ∧
      (∀ l ∈ o.listeners, alive l = true → l ∉ invoked →
        ∃ m ∈ invoked, RegistryCall.unsubscibe l ∈ removing m ∧
          ∃ pre post, o.listeners = pre ++ l :: post ∧ m ∈ pre)) ∧
    (∀ steps, Observable.notifyWith (fun _ => true)
      (fun l => [RegistryCall.subscribe (l + 1)]) steps ⟨[0]⟩ = .outOfFuel) := by
  refine ⟨?_, ?_, ?_⟩
  · have hbound : o.listeners.length + room pool ([] ++ o.listeners) ≤ fuel := by
      have := room_le pool ([] ++ o.listeners)
      omega
    obtain ⟨added, hloop, halive, hfresh, hsub⟩ :=
      notifyFrom_only_subscribes alive adding pool hadding hpool fuel [] o.listeners false []
        hbound
    simp only [List.nil_append, Bool.false_or] at hloop hfresh hsub
    have hfilter : (o.listeners ++ added).filter alive = o.listeners.filter alive ++ added := by
      rw [List.filter_append, filter_alive_of_alive alive added halive]
    rw [hfilter] at hloop hsub
    refine ⟨if o.listeners.any (expired alive) = true
        then Observable.removeExpired alive { listeners := o.listeners ++ added }
        else { listeners := o.listeners ++ added },
      added, ?_, fun a ha => ⟨halive a ha, hfresh a ha⟩, ?_, ?_⟩
    · unfold Observable.notifyWith
      rw [hloop]
    · intro m hm w hw hwalive
      have hin := hsub m hm w hw hwalive
      rw [← hfilter]
      exact List.mem_filter.2 ⟨hin, hwalive⟩
    · rw [notify_registry]
      by_cases hany : o.listeners.any (expired alive) = true
      · simp only [hany, if_true, Observable.removeExpired]
        rw [List.filter_append]
        congr 1
        apply List.filter_eq_self.2
        intro a ha
        simp [expired, halive a ha]
      · simp only [hany, if_false]
        simp
  · have hbound : o.listeners.length ≤ fuel := by omega
    obtain ⟨ls, new, hloop, hsub, hls, hall, hgone, hlater, hskip⟩ :=
      notifyFrom_only_unsubscribes alive removing hremoving hself fuel [] o.listeners false []
        hbound
    simp only [List.nil_append, Bool.false_or] at hloop hls
    have hfinal : ∀ b : Bool,
        (if b = true then Observable.removeExpired alive { listeners := ls }
          else ({ listeners := ls } : Observable)).listeners.Sublist ls := by
      intro b
      cases b
      · exact List.Sublist.refl ls
      · exact List.filter_sublist ls
    refine ⟨if o.listeners.any (expired alive) = true
        then Observable.removeExpired alive { listeners := ls }
        else { listeners := ls },
      new, ?_, hsub, hall, ?_, ?_, ?_, hskip⟩
    · unfold Observable.notifyWith
      rw [hloop]
    · intro m hm l hl hlalive hmem
      exact hgone m hm l hl hlalive ((hfinal _).subset hmem)
    · exact (hfinal _).trans hls
    · intro pre m post hsplit l hl hlalive
      have hpost := hlater pre m post hsplit l hl hlalive
      refine ⟨hpost, ?_⟩
      intro hpre hmem
      rw [hsplit] at hmem
      rcases List.mem_append.1 hmem with hmem | hmem
      · exact hpre hmem
      · rcases List.mem_cons.1 hmem with hmem | hmem
        · rw [hmem] at hl
          exact hself m hl
        · exact hpost hmem
  · intro steps
    have hloop := notifyFrom_chain steps [] 0 false [] (by simp)
    unfold Observable.notifyWith
    simp only
    rw [hloop]

/-- C3 (as the code has it), at the registry [1, 0, 2] with listener 0 expired:
listener 1 subscribes listener 3 in one pass, where 3 is invoked; it
unsubscribes listener 2 in the other, where 1 alone is invoked. -/
theorem notify_walks_the_list_witness :
    (∃ o1 added,
      (⟨[1, 0, 2]⟩ : Observable).notifyWith (fun x => x != 0)
          (fun l => if l = 1 then [RegistryCall.subscribe 3] else []) 4
        = .finished (o1, [1, 2] ++ added) ∧
      (∀ a ∈ added, a ≠ 0 ∧ a ∉ [1, 0, 2]) ∧
      3 ∈ [1, 2] ++ added ∧
      o1.listeners = [1, 2] ++ added) ∧
    (∃ o2 invoked,
      (⟨[1, 0, 2]⟩ : Observable).notifyWith (fun x => x != 0)
          (fun l => if l = 1 then [RegistryCall.unsubscibe 2] else []) 4
        = .finished (o2, invoked) ∧
      1 ∈ invoked ∧ 2 ∉ invoked ∧ 2 ∉ o2.listeners) := by
  have hadding : ∀ l : sp, OnlySubscribes (if l = 1 then [RegistryCall.subscribe 3] else []) := by
    intro l call hcall
    by_cases h : l = 1
    · rw [if_pos h] at hcall
      exact ⟨3, List.mem_singleton.1 hcall⟩
    · rw [if_neg h] at hcall
      cases hcall
  have hpool : ∀ (l : sp) (w : wp),
      RegistryCall.subscribe w ∈ (if l = 1 then [RegistryCall.subscribe 3] else []) →
        w ∈ [3] := by
    intro l w hcall
    by_cases h : l = 1
    · rw [if_pos h] at hcall
      have := List.mem_singleton.1 hcall
      injection this with this
      simp [this]
    · rw [if_neg h] at hcall
      cases hcall
  have hremoving : ∀ l : sp,
      OnlyUnsubscribes (if l = 1 then [RegistryCall.unsubscibe 2] else []) := by
    intro l call hcall
    by_cases h : l = 1
    · rw [if_pos h] at hcall
      exact ⟨2, List.mem_singleton.1 hcall⟩
    · rw [if_neg h] at hcall
      cases hcall
  have hself : ∀ l : sp,
      RegistryCall.unsubscibe l ∉ (if l = 1 then [RegistryCall.unsubscibe 2] else []) := by
    intro l hcall
    by_cases h : l = 1
    · rw [if_pos h] at hcall
      subst h
      simp at hcall
    · rw [if_neg h] at hcall
      cases hcall
  obtain ⟨⟨o1, added, hrun1, hadded, hclosed, hreg1⟩,
      ⟨o2, invoked, hrun2, hsub, hall, hgone, _, hlater, _⟩, _⟩ :=
    notify_walks_the_list (fun x => x != 0) ⟨[1, 0, 2]⟩
      (fun l => if l = 1 then [RegistryCall.subscribe 3] else [])
      (fun l => if l = 1 then [RegistryCall.unsubscibe 2] else []) [3] 4
      hadding hpool hremoving hself (by decide)
  have hone : (1 : sp) ∈ invoked := by
    apply hall 1 (by decide) (by decide)
    intro m hm
    by_cases h : m = 1
    · rw [if_pos h] at hm
      subst h
      simp at hm
    · rw [if_neg h] at hm
      cases hm
  have htwo : (2 : sp) ∉ invoked := by
    obtain ⟨pre, post, hsplit⟩ := List.append_of_mem hone
    refine (hlater pre 1 post hsplit 2 (by decide) (by decide)).2 ?_
    intro hpre
    have hsub2 : [2, 1].Sublist invoked := by
      rw [hsplit]
      exact (List.singleton_sublist.2 hpre).append
        (List.singleton_sublist.2 (List.mem_cons_self 1 post))
    have hbad : [2, 1].Sublist [1, 2] := hsub2.trans hsub
    revert hbad
    decide
  refine ⟨⟨o1, added, hrun1, ?_, ?_, ?_⟩, ⟨o2, invoked, hrun2, hone, htwo, ?_⟩⟩
  · intro a ha
    have := hadded a ha
    exact ⟨by simpa using this.1, this.2⟩
  · exact hclosed 1 (List.mem_append_left _ (by decide)) 3 (by decide) (by decide)
  · rw [hreg1]
    rfl
  · exact hgone 1 hone 2 (by decide) (by decide)

/-- C3 as stated fails: with every listener alive, in the registry [1] the
callback of listener 1 subscribes listener 2, and listener 2, which was not in
the registry when the pass began, is invoked in that same pass; in the registry
[1, 2] the callback of listener 1 unsubscribes listener 2, and listener 2, which
was in the registry when the pass began, is not invoked; and when the callback
of listener 1 unsubscribes listener 1 the loop is left on an unlinked node. -/
theorem notify_is_not_a_snapshot :
    ((⟨[1]⟩ : Observable).notifyWith (fun _ => true)
        (fun l => if l = 1 then [RegistryCall.subscribe 2] else []) 2
      = .finished (⟨[1, 2]⟩, [1, 2]) ∧
      [1, 2] ≠ (⟨[1]⟩ : Observable).listeners.filter (fun _ => true)) ∧
    ((⟨[1, 2]⟩ : Observable).notifyWith (fun _ => true)
        (fun l => if l = 1 then [RegistryCall.unsubscibe 2] else []) 2
      = .finished (⟨[1]⟩, [1]) ∧
      [1] ≠ (⟨[1, 2]⟩ : Observable).listeners.filter (fun _ => true)) ∧
    (⟨[1, 2]⟩ : Observable).notifyWith (fun _ => true)
        (fun l => if l = 1 then [RegistryCall.unsubscibe 1] else []) 2
      = .invalidated := by
  decide



/-! ## Facts about the `clients` map -/

theorem find_eq_none_iff (m : List (Nat × Endpoint)) (hdl : Nat) :
    find m hdl = none ↔ hdl ∉ m.map Prod.fst := by
  induction m with
  | nil => simp [find]
  | cons kv rest ih =>
    obtain ⟨k, v⟩ := kv
    by_cases hk : k = hdl
    · simp [find, hk]
    · have hk' : ¬ hdl = k := fun h => hk h.symm
      simp [find, hk, hk', ih]

theorem find_erase_of_ne (m : List (Nat × Endpoint)) (hdl other : Nat) (hne : other ≠ hdl) :
    find (erase m hdl) other = find m other := by
  induction m with
  | nil => rfl
  | cons kv rest ih =>
    obtain ⟨k, v⟩ := kv
    by_cases hk : k = hdl
    · subst hk
      have hko : ¬ k = other := fun h => hne h.symm
      simp [erase, find, hko]
    · by_cases hko : k = other
      · subst hko
        simp [erase, find, hk]
      · simp [erase, find, hk, hko, ih]

theorem find_erase_self (m : List (Nat × Endpoint)) (hdl : Nat) (hkeys : UniqueKeys m) :
    find (erase m hdl) hdl = none := by
  induction m with
  | nil => rfl
  | cons kv rest ih =>
    obtain ⟨k, v⟩ := kv
    have hcons : k ∉ rest.map Prod.fst ∧ UniqueKeys rest := by
      simpa [UniqueKeys] using hkeys
    by_cases hk : k = hdl
    · simp only [erase, hk, if_true]
      rw [find_eq_none_iff]
      exact hk ▸ hcons.1
    · simp [erase, find, hk, ih hcons.2]

theorem length_erase (m : List (Nat × Endpoint)) (hdl : Nat) (endpoint : Endpoint)
    (h : find m hdl = some endpoint) : (erase m hdl).length + 1 = m.length := by
  induction m with
  | nil => simp [find] at h
  | cons kv rest ih =>
    obtain ⟨k, v⟩ := kv
    by_cases hk : k = hdl
    · simp [erase, hk]
    · simp only [find, hk, if_false] at h
      simp [erase, hk, ih h]

theorem keys_erase_sublist (m : List (Nat × Endpoint)) (hdl : Nat) :
    ((erase m hdl).map Prod.fst).Sublist (m.map Prod.fst) := by
  induction m with
  | nil => exact List.Sublist.refl _
  | cons kv rest ih =>
    obtain ⟨k, v⟩ := kv
    by_cases hk : k = hdl
    · simp [erase, hk]
    · simp only [erase, hk, if_false, List.map_cons]
      exact List.Sublist.cons₂ k ih

theorem uniqueKeys_erase (m : List (Nat × Endpoint)) (hdl : Nat) (hkeys : UniqueKeys m) :
    UniqueKeys (erase m hdl) :=
  List.Nodup.sublist (keys_erase_sublist m hdl) hkeys

theorem insert_of_absent (m : List (Nat × Endpoint)) (hdl : Nat) (endpoint : Endpoint)
    (h : find m hdl = none) : insert m hdl endpoint = (m ++ [(hdl, endpoint)], true) := by
  simp [insert, h]

theorem uniqueKeys_insert (m : List (Nat × Endpoint)) (hdl : Nat) (endpoint : Endpoint)
    (hkeys : UniqueKeys m) : UniqueKeys (insert m hdl endpoint).1 := by
  cases h : find m hdl with
  | some e => simpa [insert, h] using hkeys
  | none =>
    rw [insert_of_absent m hdl endpoint h]
    have hnot := (find_eq_none_iff m hdl).1 h
    unfold UniqueKeys at hkeys ⊢
    rw [List.map_append, List.nodup_append]
    refine ⟨hkeys, by simp, ?_⟩
    intro a ha hb
    simp only [List.map_cons, List.map_nil, List.mem_singleton] at hb
    exact hnot (hb ▸ ha)

theorem find_append_of_absent (m : List (Nat × Endpoint)) (hdl : Nat) (endpoint : Endpoint)
    (h : find m hdl = none) : find (m ++ [(hdl, endpoint)]) hdl = some endpoint := by
  induction m with
  | nil => simp [find]
  | cons kv rest ih =>
    obtain ⟨k, v⟩ := kv
    by_cases hk : k = hdl
    · simp [find, hk] at h
    · simp only [find, hk, if_false] at h
      simp [find, hk, ih h]

/-! ## Facts about the broker -/

theorem network_notify_fst (alive : Nat → Bool) (n : Network) (call : Notification) :
    (n.notify alive call).1
      = { n with toObservable := (n.toObservable.notify alive).1 } := rfl

theorem network_notify_snd (alive : Nat → Bool) (n : Network) (call : Notification) :
    (n.notify alive call).2
      = (n.listeners.filter alive).map (fun listener => ⟨listener, call, n.clients⟩) := by
  simp [Network.notify, notify_invoked, filterMap_lock_eq_filter]

theorem onConnected_of_absent (alive : Nat → Bool) (get_remote_endpoint : Nat → String)
    (n : Network) (hdl : Nat) (h : find n.clients hdl = none) :
    n.onConnected alive get_remote_endpoint hdl
      = some (Network.notify alive
          { n with clients := n.clients ++ [(hdl, ⟨get_remote_endpoint hdl, hdl⟩)] }
          (.onConnected ⟨get_remote_endpoint hdl, hdl⟩)) := by
  simp [Network.onConnected, h, insert_of_absent]

theorem onConnected_of_present (alive : Nat → Bool) (get_remote_endpoint : Nat → String)
    (n : Network) (hdl : Nat) (endpoint : Endpoint) (h : find n.clients hdl = some endpoint) :
    n.onConnected alive get_remote_endpoint hdl = some (n, []) := by
  simp [Network.onConnected, h]

/-! ## The broker: connect, close, send, disconnect -/

/-- C5: `onConnected` with a handle that is already registered returns the
broker as it was (so the registry has the same size and the handle still maps
to the endpoint it mapped to) and delivers no notification; and from a broker
with an empty registry, a connect event with a handle followed by a second one
with the same handle leaves the one entry the first event made. -/
theorem onConnected_registered (alive alive2 : Nat → Bool)
    (get_remote_endpoint get_remote_endpoint2 : Nat → String)
    (n n0 : Network) (hdl : Nat) (endpoint : Endpoint)
    (h : find n.clients hdl = some endpoint) (hempty : n0.clients = []) :
    n.onConnected alive get_remote_endpoint hdl = some (n, []) ∧
    ∃ n1 deliveries,
      n0.onConnected alive get_remote_endpoint hdl = some (n1, deliveries) ∧
      n1.onConnected alive2 get_remote_endpoint2 hdl = some (n1, []) ∧
      n1.clients = [(hdl, ⟨get_remote_endpoint hdl, hdl⟩)] ∧
      n1.clients.length = 1 := by
  constructor
  · exact onConnected_of_present alive get_remote_endpoint n hdl endpoint h
  · have habsent : find n0.clients hdl = none := by rw [hempty]; rfl
    have hclients : (Network.notify alive
        { n0 with clients := n0.clients ++ [(hdl, ⟨get_remote_endpoint hdl, hdl⟩)] }
        (.onConnected ⟨get_remote_endpoint hdl, hdl⟩)).1.clients
        = [(hdl, ⟨get_remote_endpoint hdl, hdl⟩)] := by
      rw [network_notify_fst, hempty]
      rfl
    refine ⟨_, _, onConnected_of_absent alive get_remote_endpoint n0 hdl habsent, ?_, hclients, ?_⟩
    · apply onConnected_of_present alive2 get_remote_endpoint2 _ hdl
        ⟨get_remote_endpoint hdl, hdl⟩
      exact (congrArg (fun m => find m hdl) hclients).trans (by simp [find])
    · exact (congrArg List.length hclients).trans rfl

/-- C5, at a broker with listeners 1 and 2 and handle 7 registered, and at the
broker with the same listeners and an empty registry. -/
theorem onConnected_registered_witness :
    (Network.onConnected (fun _ => true) (fun _ => "10.0.0.2")
        ⟨⟨[1, 2]⟩, [(7, ⟨"10.0.0.1", 7⟩)], ⟨[]⟩⟩ 7
      = some (⟨⟨[1, 2]⟩, [(7, ⟨"10.0.0.1", 7⟩)], ⟨[]⟩⟩, [])) ∧
    ∃ n1 deliveries,
      Network.onConnected (fun _ => true) (fun _ => "10.0.0.2") ⟨⟨[1, 2]⟩, [], ⟨[]⟩⟩ 7
        = some (n1, deliveries) ∧
      n1.onConnected (fun _ => true) (fun _ => "10.0.0.3") 7 = some (n1, []) ∧
      n1.clients = [(7, ⟨"10.0.0.2", 7⟩)] ∧
      n1.clients.length = 1 :=
  onConnected_registered (fun _ => true) (fun _ => true) (fun _ => "10.0.0.2")
    (fun _ => "10.0.0.3") ⟨⟨[1, 2]⟩, [(7, ⟨"10.0.0.1", 7⟩)], ⟨[]⟩⟩ ⟨⟨[1, 2]⟩, [], ⟨[]⟩⟩ 7
    ⟨"10.0.0.1", 7⟩ rfl rfl

/-- C6: `onDisconnected` with a handle that is not in the registry returns
(the function is total), delivers no notification and leaves the broker,
its registry included, as it was. -/
theorem onDisconnected_unknown (alive : Nat → Bool) (n : Network) (hdl : Nat)
    (h : find n.clients hdl = none) :
    n.onDisconnected alive hdl = (n, []) := by
  simp [Network.onDisconnected, h]

/-- C6, at a broker with handle 7 registered and a close event for handle 8. -/
theorem onDisconnected_unknown_witness :
    Network.onDisconnected (fun _ => true) ⟨⟨[1, 2]⟩, [(7, ⟨"10.0.0.1", 7⟩)], ⟨[]⟩⟩ 8
      = (⟨⟨[1, 2]⟩, [(7, ⟨"10.0.0.1", 7⟩)], ⟨[]⟩⟩, []) :=
  onDisconnected_unknown (fun _ => true) ⟨⟨[1, 2]⟩, [(7, ⟨"10.0.0.1", 7⟩)], ⟨[]⟩⟩ 8 rfl

/-- C7: `onDisconnected` with a registered handle, in a broker whose map has
pairwise different keys and whose listener entries are pairwise different,
delivers `onDisconnected` with the registered endpoint to the live listeners in
insertion order, once to each, every call made while the registry is still the
one before the call (so the handle still maps to the endpoint); afterwards the
handle is not in the registry, every other handle maps to what it mapped to,
the registry is one entry smaller and the server is untouched. -/
theorem onDisconnected_registered (alive : Nat → Bool) (n : Network) (hdl : Nat)
    (endpoint : Endpoint) (h : find n.clients hdl = some endpoint)
    (hkeys : UniqueKeys n.clients) (hinv : n.listeners.Nodup) :
    (n.onDisconnected alive hdl).2
      = (n.listeners.filter alive).map
          (fun listener => ⟨listener, .onDisconnected endpoint, n.clients⟩) ∧
    (∀ d ∈ (n.onDisconnected alive hdl).2, find d.clients hdl = some endpoint) ∧
    (∀ l ∈ n.listeners, alive l = true →
      (((n.onDisconnected alive hdl).2).map Delivery.listener).count l = 1) ∧
    find (n.onDisconnected alive hdl).1.clients hdl = none ∧
    (∀ other, other ≠ hdl →
      find (n.onDisconnected alive hdl).1.clients other = find n.clients other) ∧
    (n.onDisconnected alive hdl).1.clients.length + 1 = n.clients.length ∧
    (n.onDisconnected alive hdl).1.server = n.server := by
  have hrun : n.onDisconnected alive hdl
      = ({ (n.notify alive (.onDisconnected endpoint)).1 with
            clients := erase n.clients hdl },
          (n.listeners.filter alive).map
            (fun listener => ⟨listener, .onDisconnected endpoint, n.clients⟩)) := by
    simp only [Network.onDisconnected, h]
    rw [network_notify_snd, network_notify_fst]
  rw [hrun]
  refine ⟨rfl, ?_, ?_, ?_, ?_, ?_, rfl⟩
  · intro d hd
    obtain ⟨l, _, rfl⟩ := List.mem_map.1 hd
    exact h
  · intro l hl hlalive
    rw [List.map_map]
    have : (Delivery.listener ∘ fun listener =>
        (⟨listener, .onDisconnected endpoint, n.clients⟩ : Delivery)) = id := by
      funext x; rfl
    rw [this, List.map_id, List.count_filter (by simpa using hlalive)]
    exact List.count_eq_one_of_mem hinv hl
  · exact find_erase_self n.clients hdl hkeys
  · intro other hne
    exact find_erase_of_ne n.clients hdl other hne
  · exact length_erase n.clients hdl endpoint h

/-- C7, at a broker with listeners 1, 0 (expired) and 2, handles 7 and 8
registered, and a close event for handle 7. -/
theorem onDisconnected_registered_witness :
    (Network.onDisconnected (fun x => x != 0)
        ⟨⟨[1, 0, 2]⟩, [(7, ⟨"10.0.0.1", 7⟩), (8, ⟨"10.0.0.2", 8⟩)], ⟨[]⟩⟩ 7).2
      = [⟨1, .onDisconnected ⟨"10.0.0.1", 7⟩, [(7, ⟨"10.0.0.1", 7⟩), (8, ⟨"10.0.0.2", 8⟩)]⟩,
         ⟨2, .onDisconnected ⟨"10.0.0.1", 7⟩, [(7, ⟨"10.0.0.1", 7⟩), (8, ⟨"10.0.0.2", 8⟩)]⟩] ∧
    find (Network.onDisconnected (fun x => x != 0)
        ⟨⟨[1, 0, 2]⟩, [(7, ⟨"10.0.0.1", 7⟩), (8, ⟨"10.0.0.2", 8⟩)], ⟨[]⟩⟩ 7).1.clients 7
      = none :=
  have w := onDisconnected_registered (fun x => x != 0)
    ⟨⟨[1, 0, 2]⟩, [(7, ⟨"10.0.0.1", 7⟩), (8, ⟨"10.0.0.2", 8⟩)], ⟨[]⟩⟩ 7 ⟨"10.0.0.1", 7⟩ rfl
    (by decide) (by decide)
  ⟨w.1, w.2.2.2.1⟩

/-- C8: the binary overload of `send` hands nothing to the server where the
text overload hands it one frame: at a broker with handle 7 registered the
bytes 104, 105 are sent as a text message and are not sent as a binary one. -/
theorem send_binary_sends_nothing :
    (Network.send_binary ⟨⟨[1]⟩, [(7, ⟨"10.0.0.1", 7⟩)], ⟨[]⟩⟩ ⟨"10.0.0.1", 7⟩
        ⟨[104, 105]⟩).server.sent = [] ∧
    (Network.send ⟨⟨[1]⟩, [(7, ⟨"10.0.0.1", 7⟩)], ⟨[]⟩⟩ ⟨"10.0.0.1", 7⟩
        ⟨[104, 105]⟩).server.sent = [⟨7, [104, 105], opcode.text⟩] := by
  decide

/-- C9: the text overload of `send` returns (it is total and has no failure
exit), and the server has been handed exactly one more frame: to the endpoint's
handle, with the message's text as payload and the text opcode; listeners and
registry are as before. -/
theorem send_text_one_frame (n : Network) (endpoint : Endpoint) (message : TextMessage) :
    (n.send endpoint message).server.sent
      = n.server.sent ++ [⟨endpoint.hdl, message.message, opcode.text⟩] ∧
    (n.send endpoint message).clients = n.clients ∧
    (n.send endpoint message).listeners = n.listeners :=
  ⟨rfl, rfl, rfl⟩

/-- C10 (as the code has it): `disconnect` does nothing: the broker, its server
and its registry are as before, no notification is delivered, and a registered
handle of the endpoint stays registered. -/
theorem disconnect_does_nothing (n : Network) (endpoint : Endpoint) :
    n.disconnect endpoint = n ∧
    (n.disconnect endpoint).server = n.server ∧
    find (n.disconnect endpoint).clients endpoint.hdl = find n.clients endpoint.hdl :=
  ⟨rfl, rfl, rfl⟩

/-- C10 as stated fails: at a broker with handle 7 registered, after
`disconnect` of its endpoint the handle is still in the registry and the
server has been asked nothing. -/
theorem disconnect_keeps_the_handle :
    find (Network.disconnect ⟨⟨[1]⟩, [(7, ⟨"10.0.0.1", 7⟩)], ⟨[]⟩⟩
        ⟨"10.0.0.1", 7⟩).clients 7 = some ⟨"10.0.0.1", 7⟩ ∧
    (Network.disconnect ⟨⟨[1]⟩, [(7, ⟨"10.0.0.1", 7⟩)], ⟨[]⟩⟩ ⟨"10.0.0.1", 7⟩).server
      = ⟨[]⟩ := by
  decide



/-! ## Facts about the board map -/

theorem board_find_eq_none_iff (m : List (sp × body_t)) (p : sp) :
    board_find m p = none ↔ p ∉ m.map Prod.fst := by
  induction m with
  | nil => simp [board_find]
  | cons kv rest ih =>
    obtain ⟨k, v⟩ := kv
    by_cases hk : k = p
    · simp [board_find, hk]
    · have hk2 : ¬ p = k := fun h => hk h.symm
      simp [board_find, hk, hk2, ih]

theorem board_find_erase_of_ne (m : List (sp × body_t)) (p q : sp) (hne : q ≠ p) :
    board_find (board_erase m p) q = board_find m q := by
  induction m with
  | nil => rfl
  | cons kv rest ih =>
    obtain ⟨k, v⟩ := kv
    by_cases hk : k = p
    · subst hk
      have hkq : ¬ k = q := fun h => hne h.symm
      simp [board_erase, board_find, hkq]
    · by_cases hkq : k = q
      · subst hkq
        simp [board_erase, board_find, hk]
      · simp [board_erase, board_find, hk, hkq, ih]

theorem board_keys_erase (m : List (sp × body_t)) (p : sp) :
    (board_erase m p).map Prod.fst = (m.map Prod.fst).erase p := by
  induction m with
  | nil => rfl
  | cons kv rest ih =>
    obtain ⟨k, v⟩ := kv
    by_cases hk : k = p
    · subst hk
      simp [board_erase]
    · have hbeq : (k == p) = false := by simpa using hk
      simp [board_erase, hk, ih, List.erase_cons, hbeq]

theorem board_erase_of_absent (m : List (sp × body_t)) (p : sp)
    (h : board_find m p = none) : board_erase m p = m := by
  induction m with
  | nil => rfl
  | cons kv rest ih =>
    obtain ⟨k, v⟩ := kv
    by_cases hk : k = p
    · simp [board_find, hk] at h
    · simp only [board_find, hk, if_false] at h
      simp [board_erase, hk, ih h]

theorem uniquePlayers_erase (m : List (sp × body_t)) (p : sp) (hkeys : UniquePlayers m) :
    UniquePlayers (board_erase m p) := by
  unfold UniquePlayers at hkeys ⊢
  rw [board_keys_erase]
  exact hkeys.erase p

theorem board_find_erase_self (m : List (sp × body_t)) (p : sp) (hkeys : UniquePlayers m) :
    board_find (board_erase m p) p = none := by
  rw [board_find_eq_none_iff, board_keys_erase]
  exact fun h => (List.Nodup.mem_erase_iff hkeys).1 h |>.1 rfl

theorem board_find_assign_self (m : List (sp × body_t)) (p : sp) (body : body_t) :
    board_find (board_assign m p body) p = some body := by
  induction m with
  | nil => simp [board_assign, board_find]
  | cons kv rest ih =>
    obtain ⟨k, v⟩ := kv
    by_cases hk : k = p
    · simp [board_assign, board_find, hk]
    · simp [board_assign, board_find, hk, ih]

theorem board_find_assign_of_ne (m : List (sp × body_t)) (p q : sp) (body : body_t)
    (hne : q ≠ p) : board_find (board_assign m p body) q = board_find m q := by
  induction m with
  | nil =>
    have : ¬ p = q := fun h => hne h.symm
    simp [board_assign, board_find, this]
  | cons kv rest ih =>
    obtain ⟨k, v⟩ := kv
    by_cases hk : k = p
    · subst hk
      have hkq : ¬ k = q := fun h => hne h.symm
      simp [board_assign, board_find, hkq]
    · by_cases hkq : k = q
      · subst hkq
        simp [board_assign, board_find, hk]
      · simp [board_assign, board_find, hk, hkq, ih]

theorem board_keys_assign_of_present (m : List (sp × body_t)) (p : sp) (body old : body_t)
    (h : board_find m p = some old) :
    (board_assign m p body).map Prod.fst = m.map Prod.fst := by
  induction m with
  | nil => simp [board_find] at h
  | cons kv rest ih =>
    obtain ⟨k, v⟩ := kv
    by_cases hk : k = p
    · simp [board_assign, hk]
    · simp only [board_find, hk, if_false] at h
      simp [board_assign, hk, ih h]

theorem board_assign_same (m : List (sp × body_t)) (p : sp) (body : body_t)
    (h : board_find m p = some body) : board_assign m p body = m := by
  induction m with
  | nil => simp [board_find] at h
  | cons kv rest ih =>
    obtain ⟨k, v⟩ := kv
    by_cases hk : k = p
    · simp only [board_find, hk, if_true, Option.some.injEq] at h
      simp [board_assign, hk, h]
    · simp only [board_find, hk, if_false] at h
      simp [board_assign, hk, ih h]

theorem board_assign_of_absent (m : List (sp × body_t)) (p : sp) (body : body_t)
    (h : p ∉ m.map Prod.fst) : board_assign m p body = m ++ [(p, body)] := by
  induction m with
  | nil => rfl
  | cons kv rest ih =>
    obtain ⟨k, v⟩ := kv
    have hk : ¬ k = p := by
      intro hkp
      apply h
      simp [hkp]
    have hrest : p ∉ rest.map Prod.fst := by
      intro hmem
      apply h
      simp only [List.map_cons, List.mem_cons]
      exact Or.inr hmem
    simp [board_assign, hk, ih hrest]

/-! ## Facts about the board -/

theorem onGone_of_absent (b : GameBoardImpl) (p : sp) (h : board_find b.board p = none) :
    b.onGone p = b := by
  simp [GameBoardImpl.onGone, h]

theorem onGone_board (b : GameBoardImpl) (p : sp) :
    (b.onGone p).board = board_erase b.board p := by
  cases h : board_find b.board p with
  | none => rw [onGone_of_absent b p h, board_erase_of_absent b.board p h]
  | some body => simp [GameBoardImpl.onGone, h, GameBoardImpl.adjustBoardState]

theorem onGone_timer_tasks (b : GameBoardImpl) (p : sp) :
    (b.onGone p).timer_tasks = b.timer_tasks := by
  cases h : board_find b.board p with
  | none => rw [onGone_of_absent b p h]
  | some body => simp [GameBoardImpl.onGone, h, GameBoardImpl.adjustBoardState]

theorem onGone_onGone (b : GameBoardImpl) (p : sp) (hkeys : UniquePlayers b.board) :
    (b.onGone p).onGone p = b.onGone p := by
  apply onGone_of_absent
  rw [onGone_board]
  exact board_find_erase_self b.board p hkeys

theorem onMessage_of_absent (b : GameBoardImpl) (p : sp) (m : Message)
    (h : board_find b.board p = none) : b.onMessage p m = (b, []) := by
  simp [GameBoardImpl.onMessage, h]

theorem onMessage_of_present (b : GameBoardImpl) (p : sp) (m : Message) (body : body_t)
    (h : board_find b.board p = some body) :
    b.onMessage p m = ({ b with board := board_assign b.board p (m.apply body) }, [body]) := by
  simp [GameBoardImpl.onMessage, h, GameBoardImpl.adjustBoardState]

theorem onMessage_identity (b : GameBoardImpl) (p : sp) (m : Message)
    (hid : ∀ body, m.apply body = body) : (b.onMessage p m).1 = b := by
  cases h : board_find b.board p with
  | none => rw [onMessage_of_absent b p m h]
  | some body =>
    rw [onMessage_of_present b p m body h, hid body]
    simp only
    rw [board_assign_same b.board p body h]

/-! ## The board: onGone, onMessage, onTimeout -/

/-- C12: on a board with pairwise different players, `onGone(p)` leaves the
keys of the board with `p` taken out, `p` no longer on the board, every other
player with the body it had, and the timer tasks as they were; when `p` is not
on the board the board is unchanged.  The board of playerA and playerB, in
either order, becomes the board of playerB alone. -/
theorem onGone_removes_player (b : GameBoardImpl) (p : sp) (hkeys : UniquePlayers b.board) :
    (board_find b.board p = none → b.onGone p = b) ∧
    (b.onGone p).board.map Prod.fst = (b.board.map Prod.fst).erase p ∧
    board_find (b.onGone p).board p = none ∧
    (∀ q, q ≠ p → board_find (b.onGone p).board q = board_find b.board q) ∧
    (b.onGone p).timer_tasks = b.timer_tasks ∧
    (∀ (playerA playerB : sp) (bodyA bodyB : body_t) (tasks : List Nat), playerA ≠ playerB →
      GameBoardImpl.onGone ⟨[(playerA, bodyA), (playerB, bodyB)], tasks⟩ playerA
        = ⟨[(playerB, bodyB)], tasks⟩ ∧
      GameBoardImpl.onGone ⟨[(playerB, bodyB), (playerA, bodyA)], tasks⟩ playerA
        = ⟨[(playerB, bodyB)], tasks⟩) := by
  refine ⟨onGone_of_absent b p, ?_, ?_, ?_, onGone_timer_tasks b p, ?_⟩
  · rw [onGone_board, board_keys_erase]
  · rw [onGone_board]
    exact board_find_erase_self b.board p hkeys
  · intro q hq
    rw [onGone_board]
    exact board_find_erase_of_ne b.board p q hq
  · intro playerA playerB bodyA bodyB tasks hne
    have hne2 : ¬ playerB = playerA := fun h => hne h.symm
    constructor
    · simp [GameBoardImpl.onGone, board_find, board_erase, GameBoardImpl.adjustBoardState]
    · simp [GameBoardImpl.onGone, board_find, board_erase, GameBoardImpl.adjustBoardState, hne2]

/-- C12, at the board of players 1 and 2 when player 1 goes. -/
theorem onGone_removes_player_witness :
    (GameBoardImpl.onGone ⟨[(1, [(0, 0)]), (2, [(3, 4)])], []⟩ 1).board.map Prod.fst = [2] ∧
    board_find (GameBoardImpl.onGone ⟨[(1, [(0, 0)]), (2, [(3, 4)])], []⟩ 1).board 2
      = some [(3, 4)] :=
  have w := onGone_removes_player ⟨[(1, [(0, 0)]), (2, [(3, 4)])], []⟩ 1 (by decide)
  ⟨w.2.1, (w.2.2.2.1 2 (by decide)).trans rfl⟩

/-- C13: `onMessage(p, a)` with `p` on the board stores `a.apply` of the body
`p` had, having called `apply` on that body only, and leaves the keys, every
other player's body and the timer tasks as they were; with `p` not on the
board it leaves the board unchanged and applies nothing.  Any sequence of
actions whose `apply` is the identity leaves the board as it was. -/
theorem onMessage_applies_action (b : GameBoardImpl) (p : sp) (a : Message) :
    (board_find b.board p = none → b.onMessage p a = (b, [])) ∧
    (∀ body, board_find b.board p = some body →
      board_find (b.onMessage p a).1.board p = some (a.apply body) ∧
      (b.onMessage p a).2 = [body]) ∧
    (∀ q, q ≠ p → board_find (b.onMessage p a).1.board q = board_find b.board q) ∧
    (b.onMessage p a).1.board.map Prod.fst = b.board.map Prod.fst ∧
    (b.onMessage p a).1.timer_tasks = b.timer_tasks ∧
    (∀ actions : List (sp × Message), (∀ x ∈ actions, ∀ body, x.2.apply body = body) →
      actions.foldl (fun board x => (board.onMessage x.1 x.2).1) b = b) := by
  refine ⟨onMessage_of_absent b p a, ?_, ?_, ?_, ?_, ?_⟩
  · intro body h
    rw [onMessage_of_present b p a body h]
    exact ⟨board_find_assign_self b.board p _, rfl⟩
  · intro q hq
    cases h : board_find b.board p with
    | none => rw [onMessage_of_absent b p a h]
    | some body =>
      rw [onMessage_of_present b p a body h]
      exact board_find_assign_of_ne b.board p q _ hq
  · cases h : board_find b.board p with
    | none => rw [onMessage_of_absent b p a h]
    | some body =>
      rw [onMessage_of_present b p a body h]
      exact board_keys_assign_of_present b.board p _ body h
  · cases h : board_find b.board p with
    | none => rw [onMessage_of_absent b p a h]
    | some body => rw [onMessage_of_present b p a body h]
  · intro actions
    induction actions with
    | nil => intro _; rfl
    | cons x rest ih =>
      intro hid
      rw [List.foldl_cons, onMessage_identity b x.1 x.2 (hid x (List.mem_cons_self _ _))]
      exact ih (fun y hy => hid y (List.mem_cons_of_mem _ hy))

/-- C13, at the board of players 1 and 2 with an action that moves the head
of the body one step. -/
theorem onMessage_applies_action_witness :
    board_find (GameBoardImpl.onMessage ⟨[(1, [(0, 0)]), (2, [(3, 4)])], []⟩ 1
      ⟨fun body => (1, 0) :: body⟩).1.board 1 = some [(1, 0), (0, 0)] ∧
    [(1, ⟨fun body => body⟩), (2, ⟨fun body => body⟩), (1, ⟨fun body => body⟩)].foldl
      (fun board (x : sp × Message) => (GameBoardImpl.onMessage board x.1 x.2).1)
      ⟨[(1, [(0, 0)]), (2, [(3, 4)])], []⟩ = ⟨[(1, [(0, 0)]), (2, [(3, 4)])], []⟩ :=
  have w := onMessage_applies_action ⟨[(1, [(0, 0)]), (2, [(3, 4)])], []⟩ 1
    ⟨fun body => (1, 0) :: body⟩
  ⟨(w.2.1 [(0, 0)] rfl).1,
    w.2.2.2.2.2 [(1, ⟨fun body => body⟩), (2, ⟨fun body => body⟩), (1, ⟨fun body => body⟩)]
      (by
        intro x hx body
        simp only [List.mem_cons, List.mem_singleton, List.not_mem_nil, or_false] at hx
        rcases hx with rfl | rfl | rfl <;> rfl)⟩

/-! ## The player: a close event -/

/-- C15 (as the code has it): `Player::onGone` keeps no record of having
fired: with its listener alive, every call, for any session, calls
`onGone(player)` on the listener once, so as many close events as arrive are
forwarded; and on a board with pairwise different players a repeated
`onGone(player)` of the coordinator leaves the board as the first one left it. -/
theorem player_onGone_forwards_each_time (alive : Nat → Bool) (self : sp) (player : Player)
    (b : GameBoardImpl) (hlive : alive player.listener = true)
    (hkeys : UniquePlayers b.board) :
    (∀ client, Player.onGone alive self player client = .ok [⟨player.listener, self⟩]) ∧
    (∀ sessions : List sp, sessions.map (Player.onGone alive self player)
      = sessions.map (fun _ => .ok [⟨player.listener, self⟩])) ∧
    (b.onGone self).onGone self = b.onGone self := by
  have hone : ∀ client, Player.onGone alive self player client
      = .ok [⟨player.listener, self⟩] := by
    intro client
    simp [Player.onGone, notify, lock_of_alive alive player.listener hlive]
  refine ⟨hone, ?_, onGone_onGone b self hkeys⟩
  intro sessions
  apply List.map_congr_left
  intro client _
  exact hone client

/-- C15 (as the code has it), at player 5 of the board 9, session 3, on the
board of players 5 and 6. -/
theorem player_onGone_forwards_each_time_witness :
    [3, 3].map (Player.onGone (fun _ => true) 5 ⟨9⟩)
      = [.ok [⟨9, 5⟩], .ok [⟨9, 5⟩]] ∧
    (GameBoardImpl.onGone ⟨[(5, []), (6, [])], []⟩ 5).onGone 5
      = GameBoardImpl.onGone ⟨[(5, []), (6, [])], []⟩ 5 :=
  have w := player_onGone_forwards_each_time (fun _ => true) 5 ⟨9⟩ ⟨[(5, []), (6, [])], []⟩
    rfl (by decide)
  ⟨w.2.1 [3, 3], w.2.2⟩

/-- C15 as stated fails: player 5, whose coordinator 9 is alive, gets the close
event of session 3 twice; the second call is made on the same player and is the
same call as the first: it calls the coordinator's `onGone` again. -/
theorem player_onGone_fires_again :
    Player.onGone (fun _ => true) 5 ⟨9⟩ 3 = .ok [⟨9, 5⟩] ∧
    Player.onGone (fun _ => true) 5 ⟨9⟩ 3 ≠ .ok [] := by
  constructor
  · rfl
  · intro h
    simp [Player.onGone, notify, lock] at h

/-! ## The broker: a message -/

/-- C17: `onMessage` with a handle that is not registered returns the broker as
it was and delivers nothing.  With a registered handle, in a broker whose
listener entries are pairwise different, it delivers to the live listeners, in
insertion order and once to each, `onMessage` with the registered endpoint and
a message holding the payload of `msg`: a `TextMessage` when the opcode is text
and a `BinaryMessage` otherwise.  The registry and the server are as before
either way. -/
theorem onMessage_delivers (alive : Nat → Bool) (n : Network) (hdl : Nat) (msg : message_ptr)
    (hinv : n.listeners.Nodup) :
    (find n.clients hdl = none → n.onMessage alive hdl msg = (n, [])) ∧
    (∀ endpoint, find n.clients hdl = some endpoint →
      (n.onMessage alive hdl msg).2
        = (n.listeners.filter alive).map (fun listener =>
            ⟨listener,
              if msg.get_opcode = opcode.text
                then Notification.onMessageText endpoint ⟨msg.get_payload⟩
                else Notification.onMessageBinary endpoint ⟨msg.get_payload⟩,
              n.clients⟩) ∧
      ∀ l ∈ n.listeners, alive l = true →
        ((n.onMessage alive hdl msg).2.map Delivery.listener).count l = 1) ∧
    (n.onMessage alive hdl msg).1.clients = n.clients ∧
    (n.onMessage alive hdl msg).1.server = n.server := by
  have hcount : ∀ (call : Notification) (l : sp), l ∈ n.listeners → alive l = true →
      (((n.listeners.filter alive).map
        (fun listener => (⟨listener, call, n.clients⟩ : Delivery))).map
          Delivery.listener).count l = 1 := by
    intro call l hl hlalive
    rw [List.map_map]
    have : (Delivery.listener ∘ fun listener => (⟨listener, call, n.clients⟩ : Delivery))
        = id := by
      funext x; rfl
    rw [this, List.map_id, List.count_filter (by simpa using hlalive)]
    exact List.count_eq_one_of_mem hinv hl
  cases hfind : find n.clients hdl with
  | none =>
    have hrun : n.onMessage alive hdl msg = (n, []) := by
      simp [Network.onMessage, hfind]
    rw [hrun]
    exact ⟨fun _ => rfl, fun endpoint h => (by cases h), rfl, rfl⟩
  | some e =>
    by_cases htext : msg.get_opcode = opcode.text
    · have hrun : n.onMessage alive hdl msg
          = n.notify alive (.onMessageText e ⟨msg.get_payload⟩) := by
        simp [Network.onMessage, hfind, htext]
      rw [hrun, network_notify_snd, network_notify_fst]
      refine ⟨fun h => (by cases h), ?_, rfl, rfl⟩
      intro endpoint h
      cases h
      refine ⟨?_, hcount _⟩
      simp [htext]
    · have hrun : n.onMessage alive hdl msg
          = n.notify alive (.onMessageBinary e ⟨msg.get_payload⟩) := by
        simp [Network.onMessage, hfind, htext]
      rw [hrun, network_notify_snd, network_notify_fst]
      refine ⟨fun h => (by cases h), ?_, rfl, rfl⟩
      intro endpoint h
      cases h
      refine ⟨?_, hcount _⟩
      simp [htext]

/-- C17, at a broker with listeners 1, 0 (expired) and 2 and handle 7
registered: a text frame and a binary frame with the bytes 104, 105. -/
theorem onMessage_delivers_witness :
    (Network.onMessage (fun x => x != 0) ⟨⟨[1, 0, 2]⟩, [(7, ⟨"10.0.0.1", 7⟩)], ⟨[]⟩⟩ 7
        ⟨opcode.text, [104, 105]⟩).2
      = [⟨1, .onMessageText ⟨"10.0.0.1", 7⟩ ⟨[104, 105]⟩, [(7, ⟨"10.0.0.1", 7⟩)]⟩,
         ⟨2, .onMessageText ⟨"10.0.0.1", 7⟩ ⟨[104, 105]⟩, [(7, ⟨"10.0.0.1", 7⟩)]⟩] ∧
    (Network.onMessage (fun x => x != 0) ⟨⟨[1, 0, 2]⟩, [(7, ⟨"10.0.0.1", 7⟩)], ⟨[]⟩⟩ 7
        ⟨opcode.text, [104, 105]⟩).1.clients = [(7, ⟨"10.0.0.1", 7⟩)] :=
  have w := onMessage_delivers (fun x => x != 0)
    ⟨⟨[1, 0, 2]⟩, [(7, ⟨"10.0.0.1", 7⟩)], ⟨[]⟩⟩ 7 ⟨opcode.text, [104, 105]⟩ (by decide)
  ⟨(w.2.1 ⟨"10.0.0.1", 7⟩ rfl).1, w.2.2.1⟩

/-! ## The registry: its invariant -/

theorem call_nodup (alive : Nat → Bool) (o : Observable) (c : ObservableCall)
    (hinv : o.listeners.Nodup) : (o.call alive c).listeners.Nodup := by
  cases c with
  | subscribe listener => exact subscribe_nodup alive o listener hinv
  | unsubscibe listener => exact unsubscibe_nodup alive o listener hinv
  | notify => exact notify_nodup alive o hinv

theorem calls_nodup (cs : List ((Nat → Bool) × ObservableCall)) :
    ∀ o : Observable, o.listeners.Nodup → (o.calls cs).listeners.Nodup := by
  induction cs with
  | nil => intro o h; exact h
  | cons c rest ih =>
    intro o h
    obtain ⟨alive, c⟩ := c
    exact ih (o.call alive c) (call_nodup alive o c h)

/-- C19: after any sequence of `subscribe`, `unsubscibe` and `notify` calls on
the empty registry, each made in whatever heap there is at that time, the
entries of the list are pairwise different, and in every heap no two entries
resolve to the same live listener: the listeners the entries resolve to are
pairwise different. -/
theorem registry_entries_differ (cs : List ((Nat → Bool) × ObservableCall)) :
    ((Observable.calls ⟨[]⟩ cs).listeners).Nodup ∧
    (∀ alive : Nat → Bool, ((Observable.calls ⟨[]⟩ cs).listeners.filterMap (lock alive)).Nodup) ∧
    (∀ alive : Nat → Bool, (Observable.calls ⟨[]⟩ cs).listeners.Pairwise
      (fun a b => ∀ s, lock alive a = some s → lock alive b ≠ some s)) := by
  have hnodup := calls_nodup cs ⟨[]⟩ List.nodup_nil
  refine ⟨hnodup, ?_, ?_⟩
  · intro alive
    rw [filterMap_lock_eq_filter]
    exact hnodup.filter _
  · intro alive
    refine List.Pairwise.imp ?_ hnodup
    intro a b hab s ha hb
    have h1 := (lock_eq_some alive a s).1 ha
    have h2 := (lock_eq_some alive b s).1 hb
    exact hab (h1.2.trans h2.2.symm)


/-! ## Facts about `init` -/

theorem create_next (h : Heap) (listener : wp) (client : sp) :
    (Player.create h listener client).1.next = h.next + 1 ∧
    (Player.create h listener client).2 = h.next := ⟨rfl, rfl⟩

theorem create_alive (h : Heap) (listener : wp) (client : sp) (x : Nat) :
    (Player.create h listener client).1.alive x = (x == h.next || h.alive x) := rfl

theorem create_players (h : Heap) (listener : wp) (client : sp) :
    (Player.create h listener client).1.players = h.players ++ [(h.next, ⟨listener⟩)] := rfl

theorem create_clients (h : Heap) (listener : wp) (client : sp)
    (hfresh : ∀ c w, w ∈ (h.clients c).listeners → w < h.next) (c : sp) :
    ((Player.create h listener client).1.clients c).listeners
      = if c = client then (h.clients c).listeners ++ [h.next] else (h.clients c).listeners := by
  by_cases hc : c = client
  · subst hc
    simp only [Player.create, Player.subscribeOn, Function.update_same, if_true]
    rw [subscribe_listeners _ _ _ (by simp)]
    have hnot : h.next ∉ (h.clients c).listeners := fun hmem =>
      Nat.lt_irrefl _ (hfresh c _ hmem)
    simp [hnot]
  · simp only [Player.create, Player.subscribeOn, if_neg hc]
    rw [Function.update_noteq hc]

theorem initLoop_board (self : sp) (clients : List sp) :
    ∀ (h : Heap) (b : GameBoardImpl), (∀ k ∈ b.board.map Prod.fst, k < h.next) →
      (GameBoardImpl.initLoop self h b clients).2.board
          = b.board ++ (List.range' h.next clients.length).map
              (fun p => (p, GameBoardImpl.placeNewPlayer)) ∧
      (GameBoardImpl.initLoop self h b clients).2.timer_tasks = b.timer_tasks ∧
      (GameBoardImpl.initLoop self h b clients).1.next = h.next + clients.length := by
  induction clients with
  | nil =>
    intro h b _
    simp [GameBoardImpl.initLoop]
  | cons client rest ih =>
    intro h b hkeys
    have hnot : h.next ∉ b.board.map Prod.fst := fun hmem =>
      Nat.lt_irrefl _ (hkeys _ hmem)
    have hassign := board_assign_of_absent b.board h.next GameBoardImpl.placeNewPlayer hnot
    have hkeys2 : ∀ k ∈ (b.board ++ [(h.next, GameBoardImpl.placeNewPlayer)]).map Prod.fst,
        k < h.next + 1 := by
      intro k hk
      simp only [List.map_append, List.map_cons, List.map_nil, List.mem_append,
        List.mem_singleton] at hk
      rcases hk with hk | hk
      · exact Nat.lt_succ_of_lt (hkeys k hk)
      · rw [hk]
        exact Nat.lt_succ_self _
    have hstep := ih (Player.create h self client).1
      { b with board := b.board ++ [(h.next, GameBoardImpl.placeNewPlayer)] } hkeys2
    simp only [GameBoardImpl.initLoop, (create_next h self client).2, hassign]
    rw [(create_next h self client).1] at hstep
    refine ⟨?_, hstep.2.1, ?_⟩
    · rw [hstep.1]
      simp [List.range'_succ]
    · rw [hstep.2.2]
      simp only [List.length_cons]
      omega

theorem initLoop_heap (self : sp) (clients : List sp) :
    ∀ (h : Heap) (b : GameBoardImpl), (∀ c w, w ∈ (h.clients c).listeners → w < h.next) →
      (∀ c, ((GameBoardImpl.initLoop self h b clients).1.clients c).listeners
          = (h.clients c).listeners
            ++ (((List.range' h.next clients.length).zip clients).filter
                (fun pc => pc.2 == c)).map Prod.fst) ∧
      (∀ x, (GameBoardImpl.initLoop self h b clients).1.alive x
          = (decide (h.next ≤ x ∧ x < h.next + clients.length) || h.alive x)) ∧
      (GameBoardImpl.initLoop self h b clients).1.players
          = h.players ++ (List.range' h.next clients.length).map (fun p => (p, ⟨self⟩)) := by
  induction clients with
  | nil =>
    intro h b _
    simp [GameBoardImpl.initLoop]
  | cons client rest ih =>
    intro h b hfresh
    have hfresh2 : ∀ c w, w ∈ ((Player.create h self client).1.clients c).listeners →
        w < (Player.create h self client).1.next := by
      intro c w hw
      rw [create_clients h self client hfresh c] at hw
      rw [(create_next h self client).1]
      by_cases hc : c = client
      · rw [if_pos hc] at hw
        rcases List.mem_append.1 hw with hw | hw
        · exact Nat.lt_succ_of_lt (hfresh c w hw)
        · rw [List.mem_singleton] at hw
          rw [hw]
          exact Nat.lt_succ_self _
      · rw [if_neg hc] at hw
        exact Nat.lt_succ_of_lt (hfresh c w hw)
    have hstep := ih (Player.create h self client).1
      { b with board := (board_assign b.board (Player.create h self client).2
          GameBoardImpl.placeNewPlayer) } hfresh2
    simp only [GameBoardImpl.initLoop]
    rw [(create_next h self client).1] at hstep
    refine ⟨?_, ?_, ?_⟩
    · intro c
      rw [hstep.1 c, create_clients h self client hfresh c]
      by_cases hc : c = client
      · subst hc
        simp [List.range'_succ]
      · have hc2 : ¬ client = c := fun heq => hc heq.symm
        simp [List.range'_succ, hc, hc2]
    · intro x
      rw [hstep.2.1 x, create_alive]
      simp only [List.length_cons]
      by_cases hx : x = h.next
      · subst hx
        simp
      · have hbeq : (x == h.next) = false := by simpa using hx
        rw [hbeq, Bool.false_or]
        congr 1
        apply decide_eq_decide.2
        constructor
        · rintro ⟨h1, h2⟩
          exact ⟨by omega, by omega⟩
        · rintro ⟨h1, h2⟩
          exact ⟨by omega, by omega⟩
    · rw [hstep.2.2, create_players]
      simp [List.range'_succ]

theorem range_map_keys (start len : Nat) (body : body_t) :
    ((List.range' start len).map (fun p => (p, body))).map Prod.fst = List.range' start len := by
  rw [List.map_map]
  have : (Prod.fst ∘ fun p : Nat => (p, body)) = id := by
    funext x; rfl
  rw [this, List.map_id]

theorem create_eq (h : Heap) (clients : List sp) (hne : clients ≠ []) :
    GameBoard.create h clients
      = some ((GameBoardImpl.init h.next
          { h with next := h.next + 1, alive := fun x => x == h.next || h.alive x }
          ⟨[], []⟩ clients).1, h.next,
        (GameBoardImpl.init h.next
          { h with next := h.next + 1, alive := fun x => x == h.next || h.alive x }
          ⟨[], []⟩ clients).2) := by
  cases clients with
  | nil => exact absurd rfl hne
  | cons c rest => rfl

theorem create_board (h h1 : Heap) (clients : List sp) (self : sp) (b : GameBoardImpl)
    (hcreate : GameBoard.create h clients = some (h1, self, b)) :
    clients ≠ [] ∧
    b.board = (List.range' (h.next + 1) clients.length).map
      (fun p => (p, GameBoardImpl.placeNewPlayer)) ∧
    b.timer_tasks = [] := by
  have hne : clients ≠ [] := by
    intro hnil
    subst hnil
    simp [GameBoard.create] at hcreate
  rw [create_eq h clients hne] at hcreate
  simp only [Option.some.injEq, Prod.mk.injEq] at hcreate
  obtain ⟨_, _, hb⟩ := hcreate
  have hloop := initLoop_board h.next clients
    { h with next := h.next + 1, alive := fun x => x == h.next || h.alive x } ⟨[], []⟩
    (by simp)
  refine ⟨hne, ?_, ?_⟩
  · rw [← hb]
    simpa [GameBoardImpl.init, GameBoardImpl.adjustBoardState] using hloop.1
  · rw [← hb]
    simpa [GameBoardImpl.init, GameBoardImpl.adjustBoardState] using hloop.2.1


theorem call_keeps (b : GameBoardImpl) (c : BoardCall) (hkeys : UniquePlayers b.board)
    (htasks : b.timer_tasks = []) :
    UniquePlayers (b.call c).1.board ∧ (b.call c).1.timer_tasks = [] ∧
    (∀ k ∈ (b.call c).1.board.map Prod.fst, k ∈ b.board.map Prod.fst) ∧
    (∀ p, c = BoardCall.onGone p → p ∉ (b.call c).1.board.map Prod.fst) := by
  cases c with
  | onGone player =>
    simp only [GameBoardImpl.call]
    refine ⟨?_, ?_, ?_, ?_⟩
    · rw [onGone_board]
      exact uniquePlayers_erase b.board player hkeys
    · rw [onGone_timer_tasks]
      exact htasks
    · intro k hk
      rw [onGone_board, board_keys_erase] at hk
      exact List.mem_of_mem_erase hk
    · intro p hp
      injection hp with hp
      subst hp
      rw [← board_find_eq_none_iff, onGone_board]
      exact board_find_erase_self b.board player hkeys
  | onMessage player message =>
    simp only [GameBoardImpl.call]
    cases hfind : board_find b.board player with
    | none =>
      rw [onMessage_of_absent b player message hfind]
      exact ⟨hkeys, htasks, fun k hk => hk, fun p hp => by cases hp⟩
    | some body =>
      rw [onMessage_of_present b player message body hfind]
      have hsame := board_keys_assign_of_present b.board player (message.apply body) body hfind
      refine ⟨?_, htasks, ?_, fun p hp => by cases hp⟩
      · unfold UniquePlayers at hkeys ⊢
        simp only
        rw [hsame]
        exact hkeys
      · intro k hk
        simp only at hk
        rw [hsame] at hk
        exact hk
  | onTimeout =>
    simp only [GameBoardImpl.call, GameBoardImpl.onTimeout]
    exact ⟨hkeys, htasks, fun k hk => hk, fun p hp => by cases hp⟩

theorem reachable_keeps (b : GameBoardImpl) (hreach : GameBoardImpl.Reachable b) :
    UniquePlayers b.board ∧ b.timer_tasks = [] := by
  induction hreach with
  | create h clients h1 self b hcreate =>
    obtain ⟨_, hboard, htasks⟩ := create_board h h1 clients self b hcreate
    refine ⟨?_, htasks⟩
    unfold UniquePlayers
    rw [hboard, range_map_keys]
    exact List.nodup_range' _ _
  | call b c _ ih =>
    have := call_keeps b c ih.1 ih.2
    exact ⟨this.1, this.2.1⟩

theorem calls_keys (cs : List BoardCall) :
    ∀ b : GameBoardImpl, UniquePlayers b.board → b.timer_tasks = [] →
      UniquePlayers (b.calls cs).board ∧ (b.calls cs).timer_tasks = [] ∧
      (∀ k ∈ (b.calls cs).board.map Prod.fst,
        k ∈ b.board.map Prod.fst ∧ BoardCall.onGone k ∉ cs) := by
  induction cs with
  | nil =>
    intro b hkeys htasks
    exact ⟨hkeys, htasks, fun k hk => ⟨hk, by simp⟩⟩
  | cons c rest ih =>
    intro b hkeys htasks
    obtain ⟨hk1, ht1, hsub, hgone⟩ := call_keeps b c hkeys htasks
    obtain ⟨hk2, ht2, hrest⟩ := ih (b.call c).1 hk1 ht1
    refine ⟨hk2, ht2, ?_⟩
    intro k hk
    obtain ⟨hin, hnot⟩ := hrest k hk
    refine ⟨hsub k hin, ?_⟩
    intro hmem
    rcases List.mem_cons.1 hmem with heq | hmem
    · exact hgone k heq.symm hin
    · exact hnot hmem

/-! ## The board: construction and termination -/

/-- C11: `GameBoard::create` returns nothing, its assertion having fired,
exactly when the client list is empty; for a list that is not empty it returns
a board with one entry per client, the players pairwise different, each with
the body `placeNewPlayer` gives, and no timer task. -/
theorem create_fails_iff_empty (h : Heap) (clients : List sp) :
    (GameBoard.create h clients = none ↔ clients = []) ∧
    (clients ≠ [] → ∃ h1 self b, GameBoard.create h clients = some (h1, self, b) ∧
      b.board.length = clients.length ∧
      (∀ kv ∈ b.board, kv.2 = GameBoardImpl.placeNewPlayer) ∧
      UniquePlayers b.board ∧ b.timer_tasks = []) := by
  constructor
  · constructor
    · intro hnone
      by_contra hne
      rw [create_eq h clients hne] at hnone
      cases hnone
    · intro hnil
      subst hnil
      rfl
  · intro hne
    refine ⟨_, _, _, create_eq h clients hne, ?_⟩
    obtain ⟨_, hboard, htasks⟩ := create_board h _ clients _ _ (create_eq h clients hne)
    refine ⟨?_, ?_, ?_, htasks⟩
    · rw [hboard]
      simp
    · intro kv hkv
      rw [hboard] at hkv
      obtain ⟨p, _, rfl⟩ := List.mem_map.1 hkv
      rfl
    · unfold UniquePlayers
      rw [hboard, range_map_keys]
      exact List.nodup_range' _ _

/-- C11, with the clients 10 and 11 and with no client, in a heap whose next
object is 100. -/
theorem create_fails_iff_empty_witness :
    GameBoard.create ⟨100, fun _ => false, fun _ => ⟨[]⟩, []⟩ [] = none ∧
    ∃ h1 self b,
      GameBoard.create ⟨100, fun _ => false, fun _ => ⟨[]⟩, []⟩ [10, 11] = some (h1, self, b) ∧
      b.board.length = 2 ∧ b.timer_tasks = [] :=
  have w := create_fails_iff_empty ⟨100, fun _ => false, fun _ => ⟨[]⟩, []⟩
  ⟨(w []).1.2 rfl,
    match (w [10, 11]).2 (by decide) with
    | ⟨h1, self, b, hrun, hlen, _, _, htasks⟩ => ⟨h1, self, b, hrun, hlen, htasks⟩⟩

/-- C18: `init(clients)` on an empty board, in a heap where every listener
entry of a client belongs to an object made earlier, makes the players
`next`, `next + 1`, ... one for each element of the list, also for a client that
occurs twice: the board holds exactly these players, pairwise different and as
many as the list is long, each with the body `placeNewPlayer` gives; the
listener list of every client has gained, in order, the players made for its
occurrences in the list, so the player made for the `i`-th element is subscribed
to that element, and it is alive; each new `Player` has the board as its
listener. -/
theorem init_one_player_per_client (self : sp) (h : Heap) (b : GameBoardImpl)
    (clients : List sp) (hempty : b.board = [])
    (hfresh : ∀ c w, w ∈ (h.clients c).listeners → w < h.next) :
    (GameBoardImpl.init self h b clients).2.board
      = (List.range' h.next clients.length).map (fun p => (p, GameBoardImpl.placeNewPlayer)) ∧
    (GameBoardImpl.init self h b clients).2.board.length = clients.length ∧
    UniquePlayers (GameBoardImpl.init self h b clients).2.board ∧
    (∀ c, ((GameBoardImpl.init self h b clients).1.clients c).listeners
      = (h.clients c).listeners
        ++ (((List.range' h.next clients.length).zip clients).filter
            (fun pc => pc.2 == c)).map Prod.fst) ∧
    (∀ i (hi : i < clients.length),
      h.next + i ∈ ((GameBoardImpl.init self h b clients).1.clients
        (clients.get ⟨i, hi⟩)).listeners ∧
      (GameBoardImpl.init self h b clients).1.alive (h.next + i) = true) ∧
    (GameBoardImpl.init self h b clients).1.players
      = h.players ++ (List.range' h.next clients.length).map (fun p => (p, ⟨self⟩)) := by
  have hboard := initLoop_board self clients h b (by simp [hempty])
  have hheap := initLoop_heap self clients h b hfresh
  have hb : (GameBoardImpl.init self h b clients).2.board
      = (List.range' h.next clients.length).map
          (fun p => (p, GameBoardImpl.placeNewPlayer)) := by
    simpa [GameBoardImpl.init, GameBoardImpl.adjustBoardState, hempty] using hboard.1
  refine ⟨hb, ?_, ?_, hheap.1, ?_, hheap.2.2⟩
  · rw [hb]
    simp
  · unfold UniquePlayers
    rw [hb, range_map_keys]
    exact List.nodup_range' _ _
  · intro i hi
    constructor
    · have hlist := hheap.1 (clients.get ⟨i, hi⟩)
      simp only [GameBoardImpl.init]
      rw [hlist]
      apply List.mem_append_right
      apply List.mem_map.2
      refine ⟨(h.next + i, clients.get ⟨i, hi⟩), ?_, rfl⟩
      apply List.mem_filter.2
      refine ⟨?_, by simp⟩
      apply List.mem_iff_getElem.2
      refine ⟨i, by simp [hi], ?_⟩
      simp
    · have halive := hheap.2.1 (h.next + i)
      simp only [GameBoardImpl.init]
      rw [halive]
      have : h.next ≤ h.next + i ∧ h.next + i < h.next + clients.length := ⟨by omega, by omega⟩
      simp [this]

/-- C18, with the client 10 twice and the client 11 once, in a heap whose next
object is 100 and where client 10 already has the listener 7. -/
theorem init_one_player_per_client_witness :
    (GameBoardImpl.init 99
        ⟨100, fun x => x == 7, fun c => if c = 10 then ⟨[7]⟩ else ⟨[]⟩, []⟩ ⟨[], []⟩
        [10, 11, 10]).2.board = [(100, []), (101, []), (102, [])] ∧
    ((GameBoardImpl.init 99
        ⟨100, fun x => x == 7, fun c => if c = 10 then ⟨[7]⟩ else ⟨[]⟩, []⟩ ⟨[], []⟩
        [10, 11, 10]).1.clients 10).listeners = [7, 100, 102] :=
  have w := init_one_player_per_client 99
    ⟨100, fun x => x == 7, fun c => if c = 10 then ⟨[7]⟩ else ⟨[]⟩, []⟩ ⟨[], []⟩ [10, 11, 10] rfl
    (by
      intro c w hw
      by_cases hc : c = 10
      · simp only [hc, if_true, List.mem_singleton] at hw
        rw [hw]
        decide
      · simp [hc] at hw)
  ⟨w.1.trans rfl, (w.2.2.2.1 10).trans rfl⟩

/-- C16: on a board reachable from `GameBoard::create`, after a sequence of
calls in which `onGone` has been called for every player of the board, the
board is empty and so is the queue of timer tasks, and from then on every
`onMessage` and `onTimeout` (and every call at all) returns the board as it is,
applies no action and runs no task. -/
theorem board_empty_after_all_gone (b : GameBoardImpl) (cs : List BoardCall)
    (hreach : GameBoardImpl.Reachable b)
    (hall : ∀ p ∈ b.board.map Prod.fst, BoardCall.onGone p ∈ cs) :
    (b.calls cs).board = [] ∧ (b.calls cs).timer_tasks = [] ∧
    (∀ p a, (b.calls cs).onMessage p a = (b.calls cs, [])) ∧
    (b.calls cs).onTimeout = (b.calls cs, []) ∧
    (∀ c, (b.calls cs).call c = (b.calls cs, [], [])) ∧
    (∀ more, (b.calls cs).calls more = b.calls cs) := by
  obtain ⟨hkeys, htasks⟩ := reachable_keeps b hreach
  obtain ⟨_, htasks2, hleft⟩ := calls_keys cs b hkeys htasks
  have hboard : (b.calls cs).board = [] := by
    cases hb : (b.calls cs).board with
    | nil => rfl
    | cons kv rest =>
      have hmem : kv.1 ∈ (b.calls cs).board.map Prod.fst := by
        rw [hb]; simp
      obtain ⟨hin, hnot⟩ := hleft kv.1 hmem
      exact absurd (hall kv.1 hin) hnot
  have hmsg : ∀ p a, (b.calls cs).onMessage p a = (b.calls cs, []) := by
    intro p a
    apply onMessage_of_absent
    rw [hboard]
    rfl
  have htime : (b.calls cs).onTimeout = (b.calls cs, []) := by
    simp [GameBoardImpl.onTimeout, htasks2]
  have hcall : ∀ c, (b.calls cs).call c = (b.calls cs, [], []) := by
    intro c
    cases c with
    | onGone player =>
      have : (b.calls cs).onGone player = b.calls cs := by
        apply onGone_of_absent
        rw [hboard]
        rfl
      simp [GameBoardImpl.call, this]
    | onMessage player message => simp [GameBoardImpl.call, hmsg]
    | onTimeout => simp [GameBoardImpl.call, htime]
  refine ⟨hboard, htasks2, hmsg, htime, hcall, ?_⟩
  intro more
  induction more with
  | nil => rfl
  | cons c rest ih =>
    simp only [GameBoardImpl.calls, hcall c]
    exact ih

/-- C16, at the board `create` makes for the clients 10 and 11 in a heap whose
next object is 100: player 102 goes, the timer fires, player 101 goes. -/
theorem board_empty_after_all_gone_witness :
    (GameBoardImpl.calls ⟨[(101, []), (102, [])], []⟩
      [.onGone 102, .onTimeout, .onGone 101]).board = [] ∧
    (GameBoardImpl.calls ⟨[(101, []), (102, [])], []⟩
      [.onGone 102, .onTimeout, .onGone 101]).onTimeout
      = (GameBoardImpl.calls ⟨[(101, []), (102, [])], []⟩
          [.onGone 102, .onTimeout, .onGone 101], []) :=
  have w := board_empty_after_all_gone ⟨[(101, []), (102, [])], []⟩
    [.onGone 102, .onTimeout, .onGone 101]
    (GameBoardImpl.Reachable.create ⟨100, fun _ => false, fun _ => ⟨[]⟩, []⟩ [10, 11] _ 100 _
      (create_eq ⟨100, fun _ => false, fun _ => ⟨[]⟩, []⟩ [10, 11] (by decide)))
    (by
      intro p hp
      simp only [List.map_cons, List.map_nil, List.mem_cons, List.mem_singleton,
        List.not_mem_nil, or_false] at hp
      rcases hp with rfl | rfl <;> simp)
  ⟨w.1, w.2.2.2.1⟩


theorem received_append (l : sp) (hdl : Nat) (a b : List Delivery) :
    received l hdl (a ++ b) = received l hdl a ++ received l hdl b := by
  simp [received]

theorem received_nil (l : sp) (hdl : Nat) : received l hdl [] = [] := rfl

theorem received_of_not_mem (l : sp) (hdl : Nat) (call : Notification)
    (snapshot : List (Nat × Endpoint)) (ls : List sp) (hl : l ∉ ls) :
    received l hdl (ls.map (fun x => ⟨x, call, snapshot⟩)) = [] := by
  induction ls with
  | nil => rfl
  | cons x rest ih =>
    have hx : ¬ x = l := fun h => hl (h ▸ List.mem_cons_self _ _)
    have hrest : l ∉ rest := fun h => hl (List.mem_cons_of_mem _ h)
    have ih2 := ih hrest
    simp only [received, List.map_cons, List.filter_cons] at ih2 ⊢
    simp [hx, ih2]

theorem received_of_mem (l : sp) (hdl : Nat) (call : Notification)
    (snapshot : List (Nat × Endpoint)) (ls : List sp) (hnodup : ls.Nodup) (hl : l ∈ ls) :
    received l hdl (ls.map (fun x => ⟨x, call, snapshot⟩))
      = if call.endpoint.hdl = hdl then [call] else [] := by
  induction ls with
  | nil => cases hl
  | cons x rest ih =>
    obtain ⟨hxnot, hrest⟩ := List.nodup_cons.1 hnodup
    by_cases hx : x = l
    · subst hx
      have htail := received_of_not_mem x hdl call snapshot rest hxnot
      simp only [received, List.map_cons, List.filter_cons] at htail ⊢
      by_cases hh : call.endpoint.hdl = hdl
      · simp [hh, htail]
      · simp [hh, htail]
    · have hmem : l ∈ rest := by
        rcases List.mem_cons.1 hl with h | h
        · exact absurd h.symm hx
        · exact h
      have ih2 := ih hrest hmem
      simp only [received, List.map_cons, List.filter_cons] at ih2 ⊢
      simp [hx, ih2]

theorem protocol_append (a b : List Notification) :
    ∀ st : Bool, protocol st (a ++ b) = (protocol st a).bind (fun s => protocol s b) := by
  induction a with
  | nil => intro st; cases st <;> simp [protocol]
  | cons x rest ih =>
    intro st
    cases st <;> cases x <;> simp [protocol, ih]

theorem isOpen_cons (hdl : Nat) (wasOpen : Bool) (event : TransportEvent)
    (events : List TransportEvent) :
    isOpen hdl wasOpen (event :: events) = isOpen hdl (openAfter hdl wasOpen event) events := rfl

theorem find_append_single (m : List (Nat × Endpoint)) (k hdl : Nat) (v : Endpoint) :
    find (m ++ [(k, v)]) hdl
      = match find m hdl with
        | some e => some e
        | none => if k = hdl then some v else none := by
  induction m with
  | nil => simp [find]
  | cons kv rest ih =>
    obtain ⟨k2, v2⟩ := kv
    by_cases hk : k2 = hdl
    · simp [find, hk]
    · simp [find, hk, ih]

theorem find_mem (m : List (Nat × Endpoint)) (hdl : Nat) (e : Endpoint)
    (h : find m hdl = some e) : (hdl, e) ∈ m := by
  induction m with
  | nil => simp [find] at h
  | cons kv rest ih =>
    obtain ⟨k, v⟩ := kv
    by_cases hk : k = hdl
    · simp only [find, hk, if_true, Option.some.injEq] at h
      simp [hk, h]
    · simp only [find, hk, if_false] at h
      exact List.mem_cons_of_mem _ (ih h)

theorem mem_of_mem_erase (m : List (Nat × Endpoint)) (hdl : Nat) (kv : Nat × Endpoint)
    (h : kv ∈ erase m hdl) : kv ∈ m := by
  induction m with
  | nil => simp [erase] at h
  | cons x rest ih =>
    obtain ⟨k, v⟩ := x
    by_cases hk : k = hdl
    · simp only [erase, hk, if_true] at h
      exact List.mem_cons_of_mem _ h
    · simp only [erase, hk, if_false, List.mem_cons] at h
      rcases h with h | h
      · rw [h]; exact List.mem_cons_self _ _
      · exact List.mem_cons_of_mem _ (ih h)

theorem notify_keeps_live (alive : Nat → Bool) (o : Observable) :
    (o.notify alive).1.listeners.filter alive = o.listeners.filter alive := by
  rw [notify_registry]
  by_cases h : o.listeners.any (expired alive) = true
  · rw [if_pos h]
    simp only [Observable.removeExpired, List.filter_filter]
    apply List.filter_congr
    intro x _
    cases hx : alive x <;> simp [expired, hx]
  · rw [if_neg h]


theorem notify_step (alive : Nat → Bool) (n : Network) (call : Notification)
    (hnodup : n.listeners.Nodup) :
    (n.notify alive call).1.clients = n.clients ∧
    (n.notify alive call).1.listeners.Nodup ∧
    (n.notify alive call).1.listeners.filter alive = n.listeners.filter alive ∧
    (∀ l hdl, l ∈ n.listeners.filter alive →
      received l hdl (n.notify alive call).2
        = if call.endpoint.hdl = hdl then [call] else []) ∧
    (∀ l hdl, l ∉ n.listeners.filter alive → received l hdl (n.notify alive call).2 = []) := by
  refine ⟨rfl, ?_, ?_, ?_, ?_⟩
  · rw [network_notify_fst]
    exact notify_nodup alive n.toObservable hnodup
  · rw [network_notify_fst]
    exact notify_keeps_live alive n.toObservable
  · intro l hdl hl
    rw [network_notify_snd]
    exact received_of_mem l hdl call n.clients _ (hnodup.filter _) hl
  · intro l hdl hl
    rw [network_notify_snd]
    exact received_of_not_mem l hdl call n.clients _ hl

theorem registered_eq_true (n : Network) (hdl : Nat) (e : Endpoint)
    (h : find n.clients hdl = some e) : n.registered hdl = true := by
  simp [Network.registered, h]

theorem registered_eq_false (n : Network) (hdl : Nat) (h : find n.clients hdl = none) :
    n.registered hdl = false := by
  simp [Network.registered, h]

theorem endpoint_hdl (n : Network) (hinv : n.Consistent) (hdl : Nat) (e : Endpoint)
    (h : find n.clients hdl = some e) : e.hdl = hdl :=
  hinv.2.1 (hdl, e) (find_mem n.clients hdl e h)

theorem dispatch_connected (alive : Nat → Bool) (n : Network) (h0 : Nat) (address : String)
    (hinv : n.Consistent) :
    ∃ n1 ds, n.dispatch alive (.connected h0 address) = some (n1, ds) ∧ n1.Consistent ∧
      n1.listeners.filter alive = n.listeners.filter alive ∧
      (∀ hdl, n1.registered hdl = openAfter hdl (n.registered hdl) (.connected h0 address)) ∧
      (∀ l hdl, l ∈ n.listeners.filter alive →
        protocol (n.registered hdl) (received l hdl ds) = some (n1.registered hdl)) ∧
      (∀ l hdl, l ∉ n.listeners.filter alive → received l hdl ds = []) := by
  cases hfind : find n.clients h0 with
  | some e =>
    have hrun : n.dispatch alive (.connected h0 address) = some (n, []) :=
      onConnected_of_present alive (fun _ => address) n h0 e hfind
    refine ⟨n, [], hrun, hinv, rfl, ?_, ?_, ?_⟩
    · intro hdl
      by_cases hh : h0 = hdl
      · subst hh
        simp [openAfter, registered_eq_true n h0 e hfind]
      · simp [openAfter, hh]
    · intro l hdl _
      simp [received_nil, protocol]
    · intro l hdl _
      rfl
  | none =>
    obtain ⟨hkeys, hhdl, hnodup⟩ := hinv
    obtain ⟨r, hr⟩ : ∃ r, r = Network.notify alive
        { n with clients := n.clients ++ [(h0, ⟨address, h0⟩)] }
        (.onConnected ⟨address, h0⟩) := ⟨_, rfl⟩
    have hstep := notify_step alive
      { n with clients := n.clients ++ [(h0, ⟨address, h0⟩)] }
      (.onConnected ⟨address, h0⟩) hnodup
    rw [← hr] at hstep
    obtain ⟨hclients, hnd, hlive, hrecv, hnone⟩ := hstep
    have hclients2 : r.1.clients = n.clients ++ [(h0, ⟨address, h0⟩)] := hclients
    have hlive2 : r.1.listeners.filter alive = n.listeners.filter alive := hlive
    have hrun : n.dispatch alive (.connected h0 address) = some (r.1, r.2) := by
      rw [hr]
      exact onConnected_of_absent alive (fun _ => address) n h0 hfind
    have hreg : ∀ hdl, r.1.registered hdl
        = openAfter hdl (n.registered hdl) (.connected h0 address) := by
      intro hdl
      simp only [Network.registered, hclients2, find_append_single, openAfter]
      by_cases hh : h0 = hdl
      · subst hh
        simp [hfind]
      · cases hf : find n.clients hdl <;> simp [hh]
    refine ⟨r.1, r.2, hrun, ⟨?_, ?_, hnd⟩, hlive2, hreg, ?_, ?_⟩
    · rw [hclients2]
      have := uniqueKeys_insert n.clients h0 ⟨address, h0⟩ hkeys
      rw [insert_of_absent n.clients h0 _ hfind] at this
      exact this
    · intro kv hkv
      rw [hclients2] at hkv
      rcases List.mem_append.1 hkv with hkv | hkv
      · exact hhdl kv hkv
      · rw [List.mem_singleton] at hkv
        rw [hkv]
    · intro l hdl hl
      rw [hrecv l hdl hl, hreg hdl]
      by_cases hh : h0 = hdl
      · subst hh
        simp [Notification.endpoint, protocol, registered_eq_false n h0 hfind, openAfter]
      · simp [Notification.endpoint, protocol, hh, openAfter]
    · intro l hdl hl
      exact hnone l hdl hl

theorem dispatch_closed (alive : Nat → Bool) (n : Network) (h0 : Nat) (hinv : n.Consistent) :
    ∃ n1 ds, n.dispatch alive (.closed h0) = some (n1, ds) ∧ n1.Consistent ∧
      n1.listeners.filter alive = n.listeners.filter alive ∧
      (∀ hdl, n1.registered hdl = openAfter hdl (n.registered hdl) (.closed h0)) ∧
      (∀ l hdl, l ∈ n.listeners.filter alive →
        protocol (n.registered hdl) (received l hdl ds) = some (n1.registered hdl)) ∧
      (∀ l hdl, l ∉ n.listeners.filter alive → received l hdl ds = []) := by
  cases hfind : find n.clients h0 with
  | none =>
    have hrun : n.onDisconnected alive h0 = (n, []) := by
      simp [Network.onDisconnected, hfind]
    refine ⟨n, [], by simp [Network.dispatch, hrun], hinv, rfl, ?_, ?_, ?_⟩
    · intro hdl
      by_cases hh : h0 = hdl
      · subst hh
        simp [openAfter, registered_eq_false n h0 hfind]
      · simp [openAfter, hh]
    · intro l hdl _
      simp [received_nil, protocol]
    · intro l hdl _
      rfl
  | some e =>
    have he := endpoint_hdl n hinv h0 e hfind
    obtain ⟨hkeys, hhdl, hnodup⟩ := hinv
    obtain ⟨hclients, hnd, hlive, hrecv, hnone⟩ :=
      notify_step alive n (.onDisconnected e) hnodup
    have hc : (n.onDisconnected alive h0).1.clients = erase n.clients h0 := by
      simp [Network.onDisconnected, hfind, hclients]
    have hl : (n.onDisconnected alive h0).1.listeners
        = (n.notify alive (.onDisconnected e)).1.listeners := by
      simp [Network.onDisconnected, hfind]
    have hd : (n.onDisconnected alive h0).2 = (n.notify alive (.onDisconnected e)).2 := by
      simp [Network.onDisconnected, hfind]
    have hreg : ∀ hdl, (n.onDisconnected alive h0).1.registered hdl
        = openAfter hdl (n.registered hdl) (.closed h0) := by
      intro hdl
      simp only [Network.registered, openAfter, hc]
      by_cases hh : h0 = hdl
      · subst hh
        simp [find_erase_self n.clients h0 hkeys]
      · have hne : hdl ≠ h0 := fun heq => hh heq.symm
        simp [find_erase_of_ne n.clients h0 hdl hne, hh]
    refine ⟨(n.onDisconnected alive h0).1, (n.onDisconnected alive h0).2, rfl,
      ⟨?_, ?_, ?_⟩, ?_, hreg, ?_, ?_⟩
    · rw [hc]
      exact uniqueKeys_erase n.clients h0 hkeys
    · intro kv hkv
      rw [hc] at hkv
      exact hhdl kv (mem_of_mem_erase n.clients h0 kv hkv)
    · rw [hl]
      exact hnd
    · rw [hl]
      exact hlive
    · intro l hdl hmem
      rw [hd, hrecv l hdl hmem, hreg hdl]
      by_cases hh : h0 = hdl
      · subst hh
        simp [Notification.endpoint, protocol, registered_eq_true n h0 e hfind, openAfter, he]
      · have hne : ¬ e.hdl = hdl := by rw [he]; exact hh
        simp [Notification.endpoint, protocol, hh, hne, openAfter]
    · intro l hdl hmem
      rw [hd]
      exact hnone l hdl hmem

theorem dispatch_message (alive : Nat → Bool) (n : Network) (h0 : Nat) (msg : message_ptr)
    (hinv : n.Consistent) :
    ∃ n1 ds, n.dispatch alive (.message h0 msg) = some (n1, ds) ∧ n1.Consistent ∧
      n1.listeners.filter alive = n.listeners.filter alive ∧
      (∀ hdl, n1.registered hdl = openAfter hdl (n.registered hdl) (.message h0 msg)) ∧
      (∀ l hdl, l ∈ n.listeners.filter alive →
        protocol (n.registered hdl) (received l hdl ds) = some (n1.registered hdl)) ∧
      (∀ l hdl, l ∉ n.listeners.filter alive → received l hdl ds = []) := by
  cases hfind : find n.clients h0 with
  | none =>
    have hrun : n.onMessage alive h0 msg = (n, []) := by
      simp [Network.onMessage, hfind]
    refine ⟨n, [], by simp [Network.dispatch, hrun], hinv, rfl, ?_, ?_, ?_⟩
    · intro hdl
      simp [openAfter]
    · intro l hdl _
      simp [received_nil, protocol]
    · intro l hdl _
      rfl
  | some e =>
    have he := endpoint_hdl n hinv h0 e hfind
    obtain ⟨hkeys, hhdl, hnodup⟩ := hinv
    have hcall : ∃ call : Notification, n.onMessage alive h0 msg = n.notify alive call ∧
        call.endpoint = e ∧ ∀ st, protocol st [call] = if st = true then some true else none := by
      by_cases htext : msg.get_opcode = opcode.text
      · refine ⟨.onMessageText e ⟨msg.get_payload⟩, by simp [Network.onMessage, hfind, htext],
          rfl, ?_⟩
        intro st
        cases st <;> simp [protocol]
      · refine ⟨.onMessageBinary e ⟨msg.get_payload⟩,
          by simp [Network.onMessage, hfind, htext], rfl, ?_⟩
        intro st
        cases st <;> simp [protocol]
    obtain ⟨call, hrun, hend, hproto⟩ := hcall
    obtain ⟨hclients, hnd, hlive, hrecv, hnone⟩ := notify_step alive n call hnodup
    have hreg : ∀ hdl, (n.notify alive call).1.registered hdl = n.registered hdl := by
      intro hdl
      simp only [Network.registered, hclients]
    refine ⟨_, _, by simp only [Network.dispatch, hrun],
      ⟨by rw [hclients]; exact hkeys, by rw [hclients]; exact hhdl, hnd⟩, hlive, ?_, ?_, hnone⟩
    · intro hdl
      rw [hreg hdl]
      rfl
    · intro l hdl hl
      rw [hrecv l hdl hl, hreg hdl, hend, he]
      by_cases hh : h0 = hdl
      · subst hh
        simp [hproto, registered_eq_true n h0 e hfind]
      · simp [hh, protocol]

theorem dispatch_step (alive : Nat → Bool) (n : Network) (event : TransportEvent)
    (hinv : n.Consistent) :
    ∃ n1 ds, n.dispatch alive event = some (n1, ds) ∧ n1.Consistent ∧
      n1.listeners.filter alive = n.listeners.filter alive ∧
      (∀ hdl, n1.registered hdl = openAfter hdl (n.registered hdl) event) ∧
      (∀ l hdl, l ∈ n.listeners.filter alive →
        protocol (n.registered hdl) (received l hdl ds) = some (n1.registered hdl)) ∧
      (∀ l hdl, l ∉ n.listeners.filter alive → received l hdl ds = []) := by
  cases event with
  | connected h0 address => exact dispatch_connected alive n h0 address hinv
  | closed h0 => exact dispatch_closed alive n h0 hinv
  | message h0 msg => exact dispatch_message alive n h0 msg hinv

theorem run_steps (alive : Nat → Bool) (events : List TransportEvent) :
    ∀ n : Network, n.Consistent →
      ∃ n1 ds, n.run alive events = some (n1, ds) ∧ n1.Consistent ∧
        n1.listeners.filter alive = n.listeners.filter alive ∧
        (∀ hdl, n1.registered hdl = isOpen hdl (n.registered hdl) events) ∧
        (∀ l hdl, l ∈ n.listeners.filter alive →
          protocol (n.registered hdl) (received l hdl ds) = some (n1.registered hdl)) ∧
        (∀ l hdl, l ∉ n.listeners.filter alive → received l hdl ds = []) := by
  induction events with
  | nil =>
    intro n hinv
    exact ⟨n, [], rfl, hinv, rfl, fun _ => rfl,
      fun _ _ _ => by simp [received_nil, protocol], fun _ _ _ => rfl⟩
  | cons event rest ih =>
    intro n hinv
    obtain ⟨n1, ds1, hrun1, hinv1, hlive1, hreg1, hproto1, hnone1⟩ :=
      dispatch_step alive n event hinv
    obtain ⟨n2, ds2, hrun2, hinv2, hlive2, hreg2, hproto2, hnone2⟩ := ih n1 hinv1
    refine ⟨n2, ds1 ++ ds2, ?_, hinv2, hlive2.trans hlive1, ?_, ?_, ?_⟩
    · simp [Network.run, hrun1, hrun2]
    · intro hdl
      rw [hreg2 hdl, hreg1 hdl, isOpen_cons]
    · intro l hdl hl
      rw [received_append, protocol_append, hproto1 l hdl hl]
      exact hproto2 l hdl (hlive1 ▸ hl)
    · intro l hdl hl
      rw [received_append, hnone1 l hdl hl, hnone2 l hdl (hlive1 ▸ hl)]
      rfl


/-! ## The broker: sequences of transport events -/

/-- C20: a broker that starts with an empty registry and pairwise different
listener entries handles every finite sequence of connected, closed and message
events without an assertion firing; afterwards the keys of the registry are
pairwise different and a handle is in the registry exactly when, in the
sequence, it was connected and not closed since; for a listener that is
subscribed and alive, the calls it received about any one handle are in the
order onConnected, then onMessage calls, then onDisconnected, then onConnected
again and so on, starting with onConnected, and the last of them left the
handle connected exactly when it is in the registry; a listener that is not
subscribed or not alive received nothing. -/
theorem run_registry_and_order (alive : Nat → Bool) (n0 : Network)
    (events : List TransportEvent) (hempty : n0.clients = [])
    (hnodup : n0.listeners.Nodup) :
    ∃ n ds, n0.run alive events = some (n, ds) ∧
      UniqueKeys n.clients ∧
      (∀ hdl, (find n.clients hdl).isSome = isOpen hdl false events) ∧
      (∀ l hdl, l ∈ n0.listeners → alive l = true →
        protocol false (received l hdl ds) = some (isOpen hdl false events)) ∧
      (∀ l hdl, ¬ (l ∈ n0.listeners ∧ alive l = true) → received l hdl ds = []) ∧
      (∀ l hdl, (protocol false (received l hdl ds)).isSome = true) := by
  have hinv : n0.Consistent := by
    refine ⟨?_, ?_, hnodup⟩
    · rw [hempty]
      exact List.nodup_nil
    · intro kv hkv
      rw [hempty] at hkv
      cases hkv
  have hclosed : ∀ hdl, n0.registered hdl = false := by
    intro hdl
    simp [Network.registered, hempty, find]
  obtain ⟨n, ds, hrun, hinv1, _, hreg, hproto, hnone⟩ := run_steps alive events n0 hinv
  have hlive : ∀ l hdl, l ∈ n0.listeners → alive l = true →
      protocol false (received l hdl ds) = some (isOpen hdl false events) := by
    intro l hdl hl hlalive
    have := hproto l hdl (List.mem_filter.2 ⟨hl, hlalive⟩)
    rw [hclosed hdl, hreg hdl, hclosed hdl] at this
    exact this
  have hdead : ∀ l hdl, ¬ (l ∈ n0.listeners ∧ alive l = true) → received l hdl ds = [] := by
    intro l hdl hl
    apply hnone l hdl
    intro hmem
    exact hl (List.mem_filter.1 hmem)
  refine ⟨n, ds, hrun, hinv1.1, ?_, hlive, hdead, ?_⟩
  · intro hdl
    have := hreg hdl
    rw [hclosed hdl] at this
    exact this
  · intro l hdl
    by_cases hl : l ∈ n0.listeners ∧ alive l = true
    · rw [hlive l hdl hl.1 hl.2]
      rfl
    · rw [hdead l hdl hl]
      rfl

/-- C20, at a broker with listeners 1, 0 (expired) and 2: handle 7 connects,
sends a frame, is reported connected again, closes, is reported closed again,
sends a frame, and handle 8 connects. -/
theorem run_registry_and_order_witness :
    ∃ n ds,
      Network.run (fun x => x != 0) ⟨⟨[1, 0, 2]⟩, [], ⟨[]⟩⟩
        [.connected 7 "10.0.0.1", .message 7 ⟨opcode.text, [104]⟩, .connected 7 "10.0.0.2",
          .closed 7, .closed 7, .message 7 ⟨opcode.binary, [105]⟩, .connected 8 "10.0.0.3"]
        = some (n, ds) ∧
      (find n.clients 7).isSome = false ∧ (find n.clients 8).isSome = true ∧
      protocol false (received 1 7 ds) = some false ∧
      protocol false (received 2 8 ds) = some true ∧
      received 0 7 ds = [] := by
  obtain ⟨n, ds, hrun, _, hreg, hlive, hdead, _⟩ :=
    run_registry_and_order (fun x => x != 0) ⟨⟨[1, 0, 2]⟩, [], ⟨[]⟩⟩
      [.connected 7 "10.0.0.1", .message 7 ⟨opcode.text, [104]⟩, .connected 7 "10.0.0.2",
        .closed 7, .closed 7, .message 7 ⟨opcode.binary, [105]⟩, .connected 8 "10.0.0.3"]
      rfl (by decide)
  exact ⟨n, ds, hrun, (hreg 7).trans (by decide), (hreg 8).trans (by decide),
    (hlive 1 7 (by decide) (by decide)).trans (by decide),
    (hlive 2 8 (by decide) (by decide)).trans (by decide),
    hdead 0 7 (by decide)⟩

/-! ## The player: notifying an expired coordinator -/

/-- C21: with the coordinator 9 destroyed, the free `notify` on the weak
reference to it does not invoke the callback and ends in a read through the
empty `slistener`, and so does `Player::onGone` of player 5; with the
coordinator alive the callback is invoked on it once and `onGone(5)` is
forwarded.  The expired branches of `Observable::subscribe` and
`Observable::unsubscibe` only log: the registry is returned as it was. -/
theorem notify_expired_reads_through_empty :
    notify (fun _ => false) 9 = .error Fault.nullDereference ∧
    Player.onGone (fun _ => false) 5 ⟨9⟩ 3 = .error Fault.nullDereference ∧
    notify (fun x => x == 9) 9 = .ok 9 ∧
    Player.onGone (fun x => x == 9) 5 ⟨9⟩ 3 = .ok [⟨9, 5⟩] ∧
    Observable.subscribe (fun _ => false) ⟨[1]⟩ 9 = ⟨[1]⟩ ∧
    Observable.unsubscibe (fun _ => false) ⟨[1]⟩ 9 = ⟨[1]⟩ :=
  ⟨rfl, rfl, rfl, rfl, rfl, rfl⟩

end Multisnake
